import Mathlib

/-!
Shallow embedding of the DCTP (Dual Channel Transport Protocol) core:
the wire codec (src/dctp/packet.py), the sender (src/dctp/sender.py),
the receiver (src/dctp/receiver.py) and the transport receive path
(src/dctp/transport.py).  Byte strings are modelled as `List Nat`
(each element a byte value), machine integers as `Nat`/`Int` with the
explicit range checks the source performs, and Python float state
(`srtt`/`rttvar`) as `Rat`.
-/

namespace DCTP

/-- Frame type carried in the first byte of the base header
(src/dctp/types.py, `PacketType`). -/
inductive PacketType where
  | DATA
  | ACK
  | SACK
  | CTRL
deriving DecidableEq, Repr

/-- Wire encoding of `PacketType` (DATA = 1, ACK = 2, SACK = 3, CTRL = 4). -/
def PacketType.toByte : PacketType → Nat
  | .DATA => 1
  | .ACK => 2
  | .SACK => 3
  | .CTRL => 4

/-- Parse a `PacketType` from its wire byte; `none` models the
`ValueError` raised by `PacketType(typ_u8)` on an unknown value. -/
def PacketType.ofByte : Nat → Option PacketType
  | 1 => some .DATA
  | 2 => some .ACK
  | 3 => some .SACK
  | 4 => some .CTRL
  | _ => none

/-- Channel type (src/dctp/types.py, `ChannelType`). -/
inductive ChannelType where
  | UNRELIABLE
  | RELIABLE
deriving DecidableEq, Repr

/-- Wire encoding of `ChannelType` (UNRELIABLE = 0, RELIABLE = 1). -/
def ChannelType.toByte : ChannelType → Nat
  | .UNRELIABLE => 0
  | .RELIABLE => 1

/-- Parse a `ChannelType` from its wire byte; `none` models the
`ValueError` raised by `ChannelType(channel_type_int)`. -/
def ChannelType.ofByte : Nat → Option ChannelType
  | 0 => some .UNRELIABLE
  | 1 => some .RELIABLE
  | _ => none

/-- One SACK block as a half-open byte range (src/dctp/types.py,
`SackBlock`).  The source field `end` is a Lean keyword and is written
`«end»` here. -/
structure SackBlock where
  start : Nat
  «end» : Nat
deriving DecidableEq, Repr

/-- A DCTP frame (src/dctp/packet.py, `Packet`).  Exactly the fields of
the Python dataclass with its defaults. -/
structure Packet where
  typ : PacketType
  channel_type : ChannelType
  seq : Nat
  ts_send : Nat
  payload : List Nat := []
  ack : Nat := 0
  rcv_wnd : Nat := 0
  ts_echo : Nat := 0
  sack : List SackBlock := []
deriving DecidableEq, Repr

def MAX_PAYLOAD : Nat := 1400

def MAX_SACK_BLOCKS : Nat := 32

/-- Big-endian bytes of a 16-bit value (`struct.pack` with format `H`). -/
def u16be (n : Nat) : List Nat := [n / 256 % 256, n % 256]

/-- Big-endian bytes of a 32-bit value (`struct.pack` with format `I`). -/
def u32be (n : Nat) : List Nat :=
  [n / 16777216 % 256, n / 65536 % 256, n / 256 % 256, n % 256]

/-- Value of two big-endian bytes (`struct.unpack` with format `H`). -/
def readU16 (a b : Nat) : Nat := a * 256 + b

/-- Value of four big-endian bytes (`struct.unpack` with format `I`). -/
def readU32 (a b c d : Nat) : Nat := ((a * 256 + b) * 256 + c) * 256 + d

/-- Running one-complement 16-bit sum with end-around carry, over
successive 16-bit big-endian words; a lone trailing byte is padded with
a zero byte (src/dctp/packet.py, `_checksum` loop). -/
def checksumAux : Nat → List Nat → Nat
  | total, [] => total
  | total, [b] =>
      let t := total + b * 256
      t % 65536 + t / 65536
  | total, b0 :: b1 :: rest =>
      let t := total + (b0 * 256 + b1)
      checksumAux (t % 65536 + t / 65536) rest

/-- 16-bit Internet checksum (src/dctp/packet.py, `_checksum`): the
final `(~total) & 0xFFFF` equals `65535 - total % 65536` for the
nonnegative running total. -/
def checksum (bs : List Nat) : Nat := 65535 - checksumAux 0 bs % 65536

/-- The serialized frame for given header fields, extras and payload:
base header with zero checksum is built, the checksum is computed over
(base-with-zero-checksum ++ extras ++ payload) and then written into
bytes 12..13 (src/dctp/packet.py, `Packet.to_bytes`, final lines). -/
def mkFrame (t c seq ts length : Nat) (extras payload : List Nat) : List Nat :=
  let ck := checksum
    (t :: c :: (u32be seq ++ u32be ts ++ u16be length ++ [0, 0] ++ extras ++ payload))
  t :: c :: (u32be seq ++ u32be ts ++ u16be length ++ u16be ck ++ extras ++ payload)

/-- The 10 extra bytes of an ACK section: `ack`, `rcv_wnd`, `ts_echo`
(format `!IHI`). -/
def ackExtras (p : Packet) : List Nat :=
  u32be p.ack ++ u16be p.rcv_wnd ++ u32be p.ts_echo

/-- Serialized SACK block list: 8 bytes per block (format `!II`). -/
def encBlocks : List SackBlock → List Nat
  | [] => []
  | b :: rest => u32be b.start ++ u32be b.«end» ++ encBlocks rest

/-- Serialize a `Packet` into a wire frame (src/dctp/packet.py,
`Packet.to_bytes`).  `none` models a `ValueError`; the range checks are
exactly those the source performs on the respective branch (the `_u8`
checks on `typ` and `channel_type` always pass for the enums). -/
def Packet.to_bytes (p : Packet) : Option (List Nat) :=
  match p.typ with
  | .DATA =>
      if p.seq ≤ 4294967295 ∧ p.ts_send ≤ 4294967295 ∧ p.payload.length ≤ MAX_PAYLOAD then
        some (mkFrame p.typ.toByte p.channel_type.toByte p.seq p.ts_send
          p.payload.length [] p.payload)
      else none
  | .ACK =>
      if p.seq ≤ 4294967295 ∧ p.ts_send ≤ 4294967295 ∧ p.payload = [] ∧
          p.ack ≤ 4294967295 ∧ p.rcv_wnd ≤ 65535 ∧ p.ts_echo ≤ 4294967295 then
        some (mkFrame p.typ.toByte p.channel_type.toByte p.seq p.ts_send 0
          (ackExtras p) [])
      else none
  | .SACK =>
      if p.seq ≤ 4294967295 ∧ p.ts_send ≤ 4294967295 ∧ p.payload = [] ∧
          p.ack ≤ 4294967295 ∧ p.rcv_wnd ≤ 65535 ∧ p.ts_echo ≤ 4294967295 ∧
          p.sack.length ≤ MAX_SACK_BLOCKS ∧
          (∀ b ∈ p.sack, b.start ≤ 4294967295 ∧ b.«end» ≤ 4294967295 ∧ b.start < b.«end») then
        some (mkFrame p.typ.toByte p.channel_type.toByte p.seq p.ts_send 0
          (ackExtras p ++ p.sack.length :: 0 :: encBlocks p.sack) [])
      else none
  | .CTRL =>
      if p.seq ≤ 4294967295 ∧ p.ts_send ≤ 4294967295 ∧ p.payload = [] then
        some (mkFrame p.typ.toByte p.channel_type.toByte p.seq p.ts_send 0 [] [])
      else none

/-- Parse `cnt` SACK blocks of 8 bytes each, rejecting any block with
`start ≥ end` (src/dctp/packet.py, `Packet.from_bytes`, SACK branch);
returns the blocks and the unconsumed remainder. -/
def parseBlocks : Nat → List Nat → Option (List SackBlock × List Nat)
  | 0, rest => some ([], rest)
  | n + 1, s3 :: s2 :: s1 :: s0 :: e3 :: e2 :: e1 :: e0 :: rest =>
      let s := readU32 s3 s2 s1 s0
      let e := readU32 e3 e2 e1 e0
      if s < e then
        (parseBlocks n rest).map (fun br => (⟨s, e⟩ :: br.1, br.2))
      else none
  | _ + 1, _ => none

/-- Parse a wire frame into a Packet (src/dctp/packet.py,
`Packet.from_bytes`).  `none` models every `ValueError` path (the
source raises distinct messages; which failing check fires first does
not matter once errors are collapsed to `none`).  The checksum is
recomputed over the frame with its checksum bytes zeroed: for genuine
byte input this equals the re-packing of the unpacked header that the
source performs. -/
def Packet.from_bytes : List Nat → Option Packet
  | t :: c :: s3 :: s2 :: s1 :: s0 :: w3 :: w2 :: w1 :: w0 :: l1 :: l0 :: k1 :: k0 :: rest =>
    match PacketType.ofByte t, ChannelType.ofByte c with
    | some typ, some ch =>
      let seq := readU32 s3 s2 s1 s0
      let ts := readU32 w3 w2 w1 w0
      let length := readU16 l1 l0
      let ck := readU16 k1 k0
      match typ with
      | .DATA =>
          if rest.length = length ∧
              ck = checksum (t :: c :: s3 :: s2 :: s1 :: s0 :: w3 :: w2 :: w1 :: w0 ::
                l1 :: l0 :: 0 :: 0 :: rest) then
            some ⟨.DATA, ch, seq, ts, rest, 0, 0, 0, []⟩
          else none
      | .ACK =>
          match rest with
          | a3 :: a2 :: a1 :: a0 :: r1 :: r0 :: e3 :: e2 :: e1 :: e0 :: rest2 =>
              if length = 0 ∧ rest2 = [] ∧
                  ck = checksum (t :: c :: s3 :: s2 :: s1 :: s0 :: w3 :: w2 :: w1 :: w0 ::
                    l1 :: l0 :: 0 :: 0 :: rest) then
                some ⟨.ACK, ch, seq, ts, [], readU32 a3 a2 a1 a0, readU16 r1 r0,
                  readU32 e3 e2 e1 e0, []⟩
              else none
          | _ => none
      | .SACK =>
          match rest with
          | a3 :: a2 :: a1 :: a0 :: r1 :: r0 :: e3 :: e2 :: e1 :: e0 :: bc :: rz :: rest3 =>
              if rz = 0 ∧ bc ≤ MAX_SACK_BLOCKS ∧ length = 0 then
                match parseBlocks bc rest3 with
                | some (blocks, rest4) =>
                    if rest4 = [] ∧
                        ck = checksum (t :: c :: s3 :: s2 :: s1 :: s0 :: w3 :: w2 :: w1 :: w0 ::
                          l1 :: l0 :: 0 :: 0 :: rest) then
                      some ⟨.SACK, ch, seq, ts, [], readU32 a3 a2 a1 a0, readU16 r1 r0,
                        readU32 e3 e2 e1 e0, blocks⟩
                    else none
                | none => none
              else none
          | _ => none
      | .CTRL =>
          if length = 0 ∧ rest = [] ∧
              ck = checksum (t :: c :: s3 :: s2 :: s1 :: s0 :: w3 :: w2 :: w1 :: w0 ::
                l1 :: l0 :: 0 :: 0 :: rest) then
            some ⟨.CTRL, ch, seq, ts, [], 0, 0, 0, []⟩
          else none
    | _, _ => none
  | _ => none

/-- One data segment tracked by the sender (src/dctp/sender.py, `_Seg`).
The source field `end` is a Lean keyword and is written `«end»`. -/
structure Seg where
  seq : Nat
  «end» : Nat
  payload : List Nat
  chan : ChannelType := .RELIABLE
  sent_ts : Nat := 0
  acked : Bool := false
  retx_count : Nat := 0
  rto_ms : Nat := 1000
deriving DecidableEq, Repr

def MAXIMUM_RTO_MS : Nat := 8000

/-- Sender state (src/dctp/sender.py, `Sender.__init__`), with field
defaults matching the constructor.  The per-channel dicts
`base_seq`/`next_seq`/`inflight` are split into `_rel`/`_unrel` fields;
the insertion-ordered dicts `inflight[chan]` become lists of segments
in insertion order (keys, i.e. `seq` values, are unique).  Omitted
relative to the source because they are write-only bookkeeping that
never feeds back into behaviour: `verbose`, the rtt min/max/sum
statistics, the 64-sample ring buffer, `base_seq`, and the
start/end-time and total packet/byte counters.  The random draw
`rng.random() < prob_reliable` is modelled by the Boolean oracle given
to `offer` (`true` = the draw chose RELIABLE). -/
structure Sender where
  mss : Nat
  win : Nat
  sack_enabled : Bool := true
  next_seq_rel : Nat := 0
  next_seq_unrel : Nat := 0
  inflight_rel : List Seg := []
  inflight_unrel : List Seg := []
  bytes_inflight : Nat := 0
  srtt : Option Rat := none
  rttvar : Option Rat := none
  default_rto : Nat := 1000
  min_rto : Nat := 200
  rtt_cnt : Nat := 0
  retx_total : Nat := 0
  sent_rel_segments : Nat := 0
  sent_unrel_segments : Nat := 0
deriving DecidableEq, Repr

/-- Structural worker for `chunkify`: the fuel bounds the number of
loop iterations.  With positive `mss` every iteration consumes at
least one byte, so fuel equal to the data length never runs out before
the data does. -/
def chunkifyGo (mss : Nat) : Nat → List Nat → List (List Nat)
  | _, [] => []
  | 0, _ :: _ => []
  | fuel + 1, d :: rest => ((d :: rest).take mss) :: chunkifyGo mss fuel ((d :: rest).drop mss)

/-- Split data into MSS-sized chunks (the `while off < take` loop of
`Sender.offer`).  For `mss = 0` the source loop would never terminate;
the sender is only ever constructed with a positive MSS, and every
claim about `offer` carries that hypothesis. -/
def chunkify (mss : Nat) (data : List Nat) : List (List Nat) :=
  if mss = 0 then [] else chunkifyGo mss data.length data

/-- Insert one chunk as a new segment on the drawn channel
(`Sender.offer` loop body): allocate the segment at `next_seq[chan]`,
advance `next_seq[chan]`, append to `inflight[chan]`, add the chunk
length to `bytes_inflight`. -/
def offerChunk (s : Sender) (rel : Bool) (chunk : List Nat) : Sender :=
  if rel then
    { s with
      inflight_rel := s.inflight_rel ++
        [{ seq := s.next_seq_rel, «end» := s.next_seq_rel + chunk.length,
           payload := chunk, chan := .RELIABLE }],
      next_seq_rel := s.next_seq_rel + chunk.length,
      bytes_inflight := s.bytes_inflight + chunk.length }
  else
    { s with
      inflight_unrel := s.inflight_unrel ++
        [{ seq := s.next_seq_unrel, «end» := s.next_seq_unrel + chunk.length,
           payload := chunk, chan := .UNRELIABLE }],
      next_seq_unrel := s.next_seq_unrel + chunk.length,
      bytes_inflight := s.bytes_inflight + chunk.length }

/-- Fold `offerChunk` over the chunks, drawing coin `i`, `i+1`, ... -/
def offerChunks (coins : Nat → Bool) : Nat → List (List Nat) → Sender → Sender
  | _, [], s => s
  | i, chunk :: rest, s => offerChunks coins (i + 1) rest (offerChunk s (coins i) chunk)

/-- Accept as much data as fits the window (src/dctp/sender.py,
`Sender.offer`): admits `min (data.length) (win - bytes_inflight)`
bytes (Nat subtraction models the `max(..., 0)` in the source), splits
them into MSS chunks and enqueues each on the channel drawn by
`coins`.  Returns the accepted byte count and the new state. -/
def Sender.offer (s : Sender) (coins : Nat → Bool) (data : List Nat) : Nat × Sender :=
  if data = [] then (0, s)
  else if s.win - s.bytes_inflight = 0 then (0, s)
  else
    (min data.length (s.win - s.bytes_inflight),
      offerChunks coins 0
        (chunkify s.mss (data.take (min data.length (s.win - s.bytes_inflight)))) s)

/-- The DATA packet emitted for a segment (`due_packets` body). -/
def mkDataPkt (now : Nat) (seg : Seg) : Packet :=
  { typ := .DATA, channel_type := seg.chan, seq := seg.seq, ts_send := now,
    payload := seg.payload }

/-- A reliable segment is due when never sent or its RTO has elapsed
(`first_send or (now - seg.sent_ts) >= seg.rto_ms`); the subtraction is
over ℤ as in Python. -/
def Seg.due (now : Nat) (seg : Seg) : Bool :=
  seg.sent_ts = 0 || ((now : Int) - (seg.sent_ts : Int) ≥ (seg.rto_ms : Int))

/-- Per-segment state change on emission: stamp `sent_ts := now`; on a
retransmission additionally bump `retx_count` and double `rto_ms`
capped at `MAXIMUM_RTO_MS`. -/
def sendUpdate (now : Nat) (seg : Seg) : Seg :=
  if seg.sent_ts = 0 then { seg with sent_ts := now }
  else { seg with sent_ts := now, retx_count := seg.retx_count + 1,
                  rto_ms := min (seg.rto_ms * 2) MAXIMUM_RTO_MS }

/-- The unreliable pass of `due_packets`: every unacked segment is
emitted (in map order) and marked `acked := true` in place.  Returns
(packets, updated segments, number of first sends, number of
retransmissions). -/
def dueUnrel (now : Nat) : List Seg → List Packet × List Seg × Nat × Nat
  | [] => ([], [], 0, 0)
  | seg :: rest =>
      match dueUnrel now rest with
      | (pkts, segs, fs, rx) =>
          if seg.acked then (pkts, seg :: segs, fs, rx)
          else if seg.sent_ts = 0 then
            (mkDataPkt now seg :: pkts, { sendUpdate now seg with acked := true } :: segs,
              fs + 1, rx)
          else
            (mkDataPkt now seg :: pkts, { sendUpdate now seg with acked := true } :: segs,
              fs, rx + 1)

/-- The key order of `sorted(..., key=lambda s: s.seq)`. -/
def segLe (a b : Seg) : Prop := a.seq ≤ b.seq

instance : DecidableRel segLe := fun a b => by unfold segLe; exact inferInstance

instance : IsTotal Seg segLe := ⟨by intro a b; unfold segLe; omega⟩

instance : IsTrans Seg segLe := ⟨by intro a b c; unfold segLe; omega⟩

/-- The state change of the reliable pass on one segment: acked or
not-due segments are untouched, due segments get `sendUpdate`. -/
def relStep (now : Nat) (seg : Seg) : Seg :=
  if seg.acked then seg
  else if seg.due now then sendUpdate now seg
  else seg

/-- Build DATA packets for segments due now (src/dctp/sender.py,
`Sender.due_packets`).  The unreliable pass walks `inflight[UNRELIABLE]`
in map order; the reliable pass walks a copy sorted by `seq` ascending
(`sorted(..., key=lambda s: s.seq)`) and mutates the shared segment
records, so the new reliable map is the original list with `relStep`
applied pointwise.  The local `to_free` list in the source is never
populated (dead code), so nothing is removed from either map and
`bytes_inflight` is unchanged. -/
def Sender.due_packets (now : Nat) (s : Sender) : List Packet × Sender :=
  match dueUnrel now s.inflight_unrel with
  | (upkts, usegs, uf, urx) =>
      let rdue := (List.insertionSort segLe s.inflight_rel).filter
        (fun seg => !seg.acked && seg.due now)
      (upkts ++ rdue.map (mkDataPkt now),
        { s with
          inflight_unrel := usegs,
          inflight_rel := s.inflight_rel.map (relStep now),
          sent_unrel_segments := s.sent_unrel_segments + uf,
          sent_rel_segments :=
            s.sent_rel_segments + (rdue.filter (fun seg => seg.sent_ts = 0)).length,
          retx_total :=
            s.retx_total + urx + (rdue.filter (fun seg => seg.sent_ts ≠ 0)).length })

/-- Mark all segments with `end ≤ up_to` as acked (src/dctp/sender.py,
`Sender._ack_up_to`). -/
def ackUpTo (up_to : Nat) (segs : List Seg) : List Seg :=
  segs.map (fun seg => if seg.«end» ≤ up_to then { seg with acked := true } else seg)

/-- Mark all segments overlapping `[start, stop)` as acked
(src/dctp/sender.py, `Sender._ack_range`). -/
def ackRange (start stop : Nat) (segs : List Seg) : List Seg :=
  segs.map (fun seg =>
    if seg.acked then seg
    else if seg.seq ≥ stop ∨ seg.«end» ≤ start then seg
    else { seg with acked := true })

/-- Apply `ackRange` for each SACK block in order (`on_feedback` loop). -/
def applyBlocks : List SackBlock → List Seg → List Seg
  | [], segs => segs
  | b :: rest, segs => applyBlocks rest (ackRange b.start b.«end» segs)

/-- Current RTO from SRTT/RTTVAR (src/dctp/sender.py,
`Sender.current_rto`).  `self.rttvar or 0.0` is `getD 0` (the `or`
also maps an exact 0.0 to 0.0, which is the same value).  Python
`int()` truncates toward zero, which is `Int.toNat ∘ floor` for the
nonnegative values that arise; for a negative rto both versions are
dominated by `min_rto` whenever `min_rto > 0`, as in every reachable
configuration. -/
def Sender.current_rto (s : Sender) : Nat :=
  match s.srtt with
  | none => s.default_rto
  | some srtt =>
      let var := s.rttvar.getD 0
      max (Int.toNat ⌊srtt + max (4 * var) 1⌋) s.min_rto

/-- RTT sampling with the Karn rule (src/dctp/sender.py,
`Sender._maybe_update_rtt`): on `ts_echo ≠ 0`, if some reliable
in-flight segment has `sent_ts = ts_echo` and `retx_count = 0`, take
the sample `max(now - ts_echo, 1)` (ℤ subtraction as in Python),
update the estimator, and push the recomputed RTO onto every reliable
segment with `retx_count = 0`.  The smoothing is over ℚ where the
source uses Python floats.  `rttvar` is `getD 0` in the smoothing
branch; in the source `srtt` and `rttvar` are always set together. -/
def Sender.maybe_update_rtt (s : Sender) (now ts_echo : Nat) : Sender :=
  if ts_echo = 0 then s
  else
    match s.inflight_rel.find? (fun seg => seg.sent_ts == ts_echo && seg.retx_count == 0) with
    | none => s
    | some _ =>
        let sample : Int := max ((now : Int) - (ts_echo : Int)) 1
        let s1 :=
          match s.srtt with
          | none =>
              { s with rtt_cnt := s.rtt_cnt + 1, srtt := some (sample : Rat),
                       rttvar := some ((sample : Rat) / 2) }
          | some v =>
              let w := s.rttvar.getD 0
              { s with rtt_cnt := s.rtt_cnt + 1,
                       rttvar := some ((1 - (1 : Rat)/4) * w + ((1 : Rat)/4) * |v - (sample : Rat)|),
                       srtt := some ((1 - (1 : Rat)/8) * v + ((1 : Rat)/8) * (sample : Rat)) }
        let rto := s1.current_rto
        { s1 with inflight_rel := (s1.inflight_rel.map
            (fun seg => if seg.retx_count = 0 then { seg with rto_ms := rto } else seg)) }

/-- Process an ACK/SACK (src/dctp/sender.py, `Sender.on_feedback`):
ignore other types; sample RTT first; mark by cumulative ack, then by
each SACK block when the packet is a SACK and `sack_enabled`; finally
remove every acked reliable segment and subtract the freed bytes (Nat
subtraction models the `max(..., 0)` clamp).  `total_packets_received`
is omitted bookkeeping. -/
def Sender.on_feedback (s : Sender) (now : Nat) (pkt : Packet) : Sender :=
  if pkt.typ = .ACK ∨ pkt.typ = .SACK then
    let s1 := s.maybe_update_rtt now pkt.ts_echo
    let rel2 := if pkt.typ = .SACK ∧ s1.sack_enabled
      then applyBlocks pkt.sack (ackUpTo pkt.ack s1.inflight_rel)
      else ackUpTo pkt.ack s1.inflight_rel
    { s1 with
      inflight_rel := rel2.filter (fun seg => !seg.acked),
      bytes_inflight := s1.bytes_inflight -
        ((rel2.filter (fun seg => seg.acked)).map (fun seg => seg.payload.length)).sum }
  else s

/-- Receiver state (src/dctp/receiver.py, `Receiver`), with the
dataclass defaults.  The insertion-ordered dict `_buf` becomes a list
of (seq, bytes) pairs in insertion order with unique keys; `verbose`
and `total_packets_received` are omitted bookkeeping. -/
structure Receiver where
  rcv_nxt : Nat := 0
  wnd_bytes : Nat := 65535
  sack_enabled : Bool := true
  buf : List (Nat × List Nat) := []
  delivered : List Nat := []
deriving DecidableEq, Repr

/-- Dict write `_buf[seq] = pay`: overwrite in place or append. -/
def bufInsert (k : Nat) (v : List Nat) : List (Nat × List Nat) → List (Nat × List Nat)
  | [] => [(k, v)]
  | (k2, v2) :: rest => if k2 = k then (k, v) :: rest else (k2, v2) :: bufInsert k v rest

/-- Dict lookup. -/
def bufGet (k : Nat) : List (Nat × List Nat) → Option (List Nat)
  | [] => none
  | (k2, v2) :: rest => if k2 = k then some v2 else bufGet k rest

/-- Dict deletion (of the first, hence only, entry with key `k`). -/
def bufRemove (k : Nat) : List (Nat × List Nat) → List (Nat × List Nat)
  | [] => []
  | (k2, v2) :: rest => if k2 = k then rest else (k2, v2) :: bufRemove k rest

/-- Structural worker for `consume_contiguous`: the fuel bounds the
number of loop iterations.  Every successful pop removes exactly one
buffer entry, so fuel equal to the number of buffered entries runs out
only once the buffer is empty, where the source loop stops as well. -/
def consumeGo : Nat → Receiver → Receiver
  | 0, r => r
  | fuel + 1, r =>
      match bufGet r.rcv_nxt r.buf with
      | none => r
      | some chunk =>
          consumeGo fuel
            { r with buf := bufRemove r.rcv_nxt r.buf,
                     delivered := r.delivered ++ chunk,
                     rcv_nxt := r.rcv_nxt + chunk.length }

/-- Greedily deliver chunks starting exactly at `rcv_nxt`
(src/dctp/receiver.py, `Receiver._consume_contiguous`): pop the entry
at `rcv_nxt`, append it to `_delivered`, advance `rcv_nxt`, repeat. -/
def consume_contiguous (r : Receiver) : Receiver := consumeGo r.buf.length r

/-- Order used for the ascending `spans.sort()` on (start, end) pairs:
Python tuple comparison is lexicographic. -/
def spanLe (a b : Nat × Nat) : Prop := a.1 < b.1 ∨ (a.1 = b.1 ∧ a.2 ≤ b.2)

instance : DecidableRel spanLe := fun a b => by unfold spanLe; exact inferInstance

instance : IsTotal (Nat × Nat) spanLe := ⟨by intro a b; unfold spanLe; omega⟩

instance : IsTrans (Nat × Nat) spanLe := ⟨by intro a b c; unfold spanLe; omega⟩

/-- Order used for `merged.sort(key=lambda b: b.start, reverse=True)`:
start descending. -/
def blockGe (a b : SackBlock) : Prop := b.start ≤ a.start

instance : DecidableRel blockGe := fun a b => by unfold blockGe; exact inferInstance

instance : IsTotal SackBlock blockGe := ⟨by intro a b; unfold blockGe; omega⟩

instance : IsTrans SackBlock blockGe := ⟨by intro a b c; unfold blockGe; omega⟩

/-- The merge loop of `_build_sack_blocks`: spans are consumed in
ascending order, a span overlapping or touching the current block
(`s ≤ ce`) extends it, otherwise the current block is emitted. -/
def mergeSpans : Nat × Nat → List (Nat × Nat) → List SackBlock
  | (cs, ce), [] => [⟨cs, ce⟩]
  | (cs, ce), (s, e) :: rest =>
      if s ≤ ce then mergeSpans (cs, max ce e) rest
      else ⟨cs, ce⟩ :: mergeSpans (s, e) rest

/-- Build merged SACK blocks for buffered data above `rcv_nxt`
(src/dctp/receiver.py, `Receiver._build_sack_blocks`): clip each
buffered span to `[max(s, rcv_nxt), e)` dropping empty ones, sort
ascending, merge, re-sort by start descending, and truncate to
`min(limit, MAX_SACK_BLOCKS)` blocks.  `sorted spans = []` exactly when
`spans = []`, so matching on the sorted list models the early
`if not spans: return []`. -/
def Receiver.build_sack_blocks (r : Receiver) (limit : Nat) : List SackBlock :=
  if ¬ r.sack_enabled then []
  else
    let spans := r.buf.filterMap (fun sp =>
      let e := sp.1 + sp.2.length
      if e ≤ r.rcv_nxt then none
      else
        let s := max sp.1 r.rcv_nxt
        if s < e then some (s, e) else none)
    match List.insertionSort spanLe spans with
    | [] => []
    | sp :: rest =>
        (List.insertionSort blockGe (mergeSpans sp rest)).take (min limit MAX_SACK_BLOCKS)

/-- Build the ACK or SACK feedback packet (src/dctp/receiver.py,
`Receiver._feedback`). -/
def Receiver.feedback (r : Receiver) (ts_echo : Nat) : Packet :=
  let blocks := r.build_sack_blocks 4
  if blocks ≠ [] ∧ r.sack_enabled then
    { typ := .SACK, channel_type := .RELIABLE, seq := r.rcv_nxt, ts_send := 0,
      payload := [], ack := r.rcv_nxt, rcv_wnd := r.wnd_bytes, ts_echo := ts_echo,
      sack := blocks }
  else
    { typ := .ACK, channel_type := .RELIABLE, seq := r.rcv_nxt, ts_send := 0,
      payload := [], ack := r.rcv_nxt, rcv_wnd := r.wnd_bytes, ts_echo := ts_echo,
      sack := [] }

/-- Process an incoming DATA packet (src/dctp/receiver.py,
`Receiver.on_data`); `none` models the `ValueError` on non-DATA input.
UNRELIABLE payloads go straight to `_delivered` with no feedback
(extending by the empty payload is the identity, so the
`if pkt.payload` guard is dropped).  For RELIABLE: a packet entirely
below `rcv_nxt` is a pure duplicate; a left overlap is trimmed (the
source's `trim ≥ len(pay)` sub-branch is unreachable there because
that case already returned as a duplicate); a non-empty remainder is
inserted at its (possibly trimmed) seq; then contiguous chunks are
consumed and feedback is built from the resulting state. -/
def Receiver.on_data (r : Receiver) (pkt : Packet) : Option (Receiver × Option Packet) :=
  if pkt.typ ≠ .DATA then none
  else if pkt.channel_type = .UNRELIABLE then
    some ({ r with delivered := r.delivered ++ pkt.payload }, none)
  else
    let seq := pkt.seq
    let pay := pkt.payload
    if seq + pay.length ≤ r.rcv_nxt then some (r, some (r.feedback pkt.ts_send))
    else
      let seq2 := if seq < r.rcv_nxt then r.rcv_nxt else seq
      let pay2 := if seq < r.rcv_nxt then pay.drop (r.rcv_nxt - seq) else pay
      let r1 := if pay2 ≠ [] then { r with buf := bufInsert seq2 pay2 r.buf } else r
      let r2 := consume_contiguous r1
      some (r2, some (r2.feedback pkt.ts_send))

/-- Return and clear the delivered queue (src/dctp/receiver.py,
`Receiver.pop_deliverable`); the early return on an empty queue yields
the same pair. -/
def Receiver.pop_deliverable (r : Receiver) : List Nat × Receiver :=
  (r.delivered, { r with delivered := [] })

/-- `Transport.recv` (src/dctp/transport.py): pop the whole delivered
queue and return only its first `max_bytes` bytes
(`self.receiver.pop_deliverable()[:max_bytes]`). -/
def transportRecv (r : Receiver) (max_bytes : Nat) : List Nat × Receiver :=
  ((r.pop_deliverable).1.take max_bytes, (r.pop_deliverable).2)

/-- Fold a packet sequence through `on_data`, for stating properties of
arbitrary call sequences; a (never reached under the hypotheses used)
`ValueError` leaves the state unchanged. -/
def runData (r : Receiver) : List Packet → Receiver
  | [] => r
  | pkt :: rest =>
      match r.on_data pkt with
      | some (r2, _) => runData r2 rest
      | none => runData r rest

/-- The contiguous slice `stream[a:b]` of the intended byte stream. -/
def slice (stream : List Nat) (a b : Nat) : List Nat := (stream.drop a).take (b - a)

/-- Induction invariant for the delivered-prefix property, relative to
the intended reliable byte stream `σ` and the initial `rcv_nxt = n0`:
`rcv_nxt` lies between `n0` and the stream length, the delivered queue
is exactly `σ[n0:rcv_nxt]`, and every buffered entry is the slice of
`σ` its key claims. -/
def RecvInv (σ : List Nat) (n0 : Nat) (r : Receiver) : Prop :=
  n0 ≤ r.rcv_nxt ∧ r.rcv_nxt ≤ σ.length ∧
  r.delivered = slice σ n0 r.rcv_nxt ∧
  ∀ kv ∈ r.buf, kv.2 = slice σ kv.1 (kv.1 + kv.2.length) ∧ kv.1 + kv.2.length ≤ σ.length

/-- Validity of a `Packet` in the words of the round-trip claim: a DATA
packet with payload length at most `MAX_PAYLOAD` and all fields in
range, or an ACK/SACK/CTRL packet with empty payload, in-range fields,
at most `MAX_SACK_BLOCKS` SACK blocks and every block with
`start < end`. -/
def claimValidPacket (p : Packet) : Prop :=
  p.seq ≤ 4294967295 ∧ p.ts_send ≤ 4294967295 ∧ p.ack ≤ 4294967295 ∧
  p.rcv_wnd ≤ 65535 ∧ p.ts_echo ≤ 4294967295 ∧
  (∀ b ∈ p.payload, b ≤ 255) ∧
  (∀ b ∈ p.sack, b.start ≤ 4294967295 ∧ b.«end» ≤ 4294967295) ∧
  (p.typ = .DATA → p.payload.length ≤ MAX_PAYLOAD) ∧
  (p.typ ≠ .DATA → p.payload = [] ∧ p.sack.length ≤ MAX_SACK_BLOCKS ∧
    ∀ b ∈ p.sack, b.start < b.«end»)

/-- The fields the wire format does not carry for the given frame type
are at their dataclass defaults: `ack`, `rcv_wnd`, `ts_echo` and `sack`
for DATA and CTRL, and `sack` for ACK.  `from_bytes` always returns
these defaults, so the round trip can only restore packets satisfying
this. -/
def wireCanonical (p : Packet) : Prop :=
  (p.typ = .DATA → p.ack = 0 ∧ p.rcv_wnd = 0 ∧ p.ts_echo = 0 ∧ p.sack = []) ∧
  (p.typ = .ACK → p.sack = []) ∧
  (p.typ = .CTRL → p.ack = 0 ∧ p.rcv_wnd = 0 ∧ p.ts_echo = 0 ∧ p.sack = [])

instance : DecidablePred claimValidPacket := fun p => by
  unfold claimValidPacket
  exact inferInstance

instance : DecidablePred wireCanonical := fun p => by
  unfold wireCanonical
  exact inferInstance

/-- A segment with its per-segment RTO normalized away, for stating
which segments an operation keeps independently of the RTO refresh the
RTT estimator may apply to them. -/
def normRto (seg : Seg) : Seg := { seg with rto_ms := 0 }

/-- A DATA packet that also carries a nonzero `ack` field.  The DATA
wire format does not carry `ack`, so decoding its encoding yields
`ack = 0`. -/
def dataWithAck : Packet :=
  { typ := .DATA, channel_type := .UNRELIABLE, seq := 0, ts_send := 0, payload := [], ack := 1 }

/-- The two-block SACK frame of the repository's own round-trip unit
test. -/
def sackExample : Packet :=
  { typ := .SACK, channel_type := .UNRELIABLE, seq := 1000, ts_send := 333, ack := 2000,
    rcv_wnd := 2048, ts_echo := 444, sack := [⟨3000, 4000⟩, ⟨4500, 5000⟩] }

/-- The empty cumulative ACK frame used as concrete feedback input. -/
def emptyAck : Packet :=
  { typ := .ACK, channel_type := .UNRELIABLE, seq := 0, ts_send := 0, ack := 0 }

/-- `Sender(mss=100, window=300)` after `offer` of one byte routed to
the UNRELIABLE channel by the Bernoulli draw, followed by one
`due_packets` flush at t = 5 ms: the emitted unreliable segment. -/
def unrelFlush : List Packet × Sender :=
  ((({ mss := 100, win := 300 } : Sender).offer (fun _ => false) [65]).2).due_packets 5

/-- `unrelFlush` followed by `on_feedback` of an empty cumulative ACK
at t = 6 ms. -/
def leakSender : Sender := unrelFlush.2.on_feedback 6 emptyAck

/-- `Sender(mss=100, window=300, sack_enabled=False)` after offering
three reliable bytes and flushing them at t = 5 ms, then receiving a
SACK whose only block `[0, 3)` covers the whole segment. -/
def sackGateSender : Sender :=
  (((({ mss := 100, win := 300, sack_enabled := false } : Sender).offer
      (fun _ => true) [65, 66, 67]).2).due_packets 5).2.on_feedback 6
    { typ := .SACK, channel_type := .UNRELIABLE, seq := 0, ts_send := 0, ack := 0,
      sack := [⟨0, 3⟩] }

/-- A reliable DATA packet with the given seq and payload and
`ts_send = 111`, as in the receiver unit tests. -/
def mkRelData (seq : Nat) (pay : List Nat) : Packet :=
  { typ := .DATA, channel_type := .RELIABLE, seq := seq, ts_send := 111, payload := pay }

/-- A fresh receiver fed `seq=3 len=5` then `seq=5 len=10`: the buffer
holds overlapping entries keyed 3 and 5. -/
def staleGapReceiver : Receiver :=
  runData {} [mkRelData 3 [1, 2, 3, 4, 5], mkRelData 5 [9, 9, 9, 9, 9, 9, 9, 9, 9, 9]]

/-- Feeding `seq=0 len=3` to `staleGapReceiver`: `rcv_nxt` jumps from 0
to 8 consuming the entries keyed 0 and 3, the entry keyed 5 goes stale,
and the returned SACK reports the clipped block `[8, 15)` whose start
equals the new `rcv_nxt`. -/
def staleGapResult : Option (Receiver × Option Packet) :=
  staleGapReceiver.on_data (mkRelData 0 [7, 7, 7])

/-- The cumulative effect of the `ackRange` passes for a block list on
one segment (pointwise form of `applyBlocks`). -/
def blockFold (bs : List SackBlock) (seg : Seg) : Seg :=
  bs.foldl (fun sg b =>
    if sg.acked then sg
    else if sg.seq ≥ b.«end» ∨ sg.«end» ≤ b.start then sg
    else { sg with acked := true }) seg

/-- The marking predicate of the retirement claim, with the
`sack_enabled` gate the source applies: a reliable segment is acked by
feedback `pkt` when `end ≤ pkt.ack`, or when `pkt` is a SACK, SACK
processing is enabled and some block `[start, end)` overlaps the
segment (`seg.seq < end ∧ start < seg.end`). -/
def ackedByFeedback (enabled : Bool) (pkt : Packet) (seg : Seg) : Bool :=
  decide (seg.«end» ≤ pkt.ack) ||
    ((decide (pkt.typ = .SACK) && enabled) &&
      pkt.sack.any (fun b => decide (seg.seq < b.«end») && decide (b.start < seg.«end»)))

/-- A sender with one reliable segment first sent at t = 5 ms and
never retransmitted, awaiting feedback echoing that timestamp. -/
def rttSender : Sender :=
  { mss := 100, win := 100,
    inflight_rel := [{ seq := 0, «end» := 50, payload := List.replicate 50 65, sent_ts := 5 }],
    bytes_inflight := 50 }

/-- A SACK whose single block `[0, 50)` covers the in-flight segment of
`rttSender`. -/
def sackFull : Packet :=
  { typ := .SACK, channel_type := .UNRELIABLE, seq := 0, ts_send := 0, ack := 0,
    sack := [⟨0, 50⟩] }

/-! ## Helper lemmas -/

theorem chunkifyGo_sum_length (mss : Nat) (hm : 0 < mss) :
    ∀ (fuel : Nat) (l : List Nat), l.length ≤ fuel →
      ((chunkifyGo mss fuel l).map List.length).sum = l.length := by
  intro fuel
  induction fuel with
  | zero =>
      intro l hle
      have hl : l = [] := by cases l <;> simp_all
      subst hl
      simp [chunkifyGo]
  | succ n ih =>
      intro l hle
      cases l with
      | nil => simp [chunkifyGo]
      | cons d rest =>
          simp only [chunkifyGo, List.map_cons, List.sum_cons, List.length_take]
          rw [ih ((d :: rest).drop mss) (by simp [List.length_drop] at hle ⊢; omega)]
          simp only [List.length_drop, List.length_cons]
          simp only [List.length_cons] at hle
          omega

theorem chunkify_sum_length (mss : Nat) (hm : 0 < mss) (data : List Nat) :
    ((chunkify mss data).map List.length).sum = data.length := by
  rw [chunkify, if_neg (by omega)]
  exact chunkifyGo_sum_length mss hm data.length data le_rfl

theorem chunkifyGo_chunk_le (mss : Nat) :
    ∀ (fuel : Nat) (l : List Nat), ∀ c ∈ chunkifyGo mss fuel l, c.length ≤ mss := by
  intro fuel
  induction fuel with
  | zero =>
      intro l c hc
      cases l <;> simp [chunkifyGo] at hc
  | succ n ih =>
      intro l c hc
      cases l with
      | nil => simp [chunkifyGo] at hc
      | cons d rest =>
          simp only [chunkifyGo, List.mem_cons] at hc
          rcases hc with h | h
          · subst h; simp [List.length_take]
          · exact ih _ c h

theorem chunkify_chunk_le (mss : Nat) (data : List Nat) :
    ∀ c ∈ chunkify mss data, c.length ≤ mss := by
  rw [chunkify]
  by_cases hm : mss = 0
  · simp [hm]
  · rw [if_neg hm]
    exact chunkifyGo_chunk_le mss data.length data

theorem offerChunk_bytes (s : Sender) (rel : Bool) (c : List Nat) :
    (offerChunk s rel c).bytes_inflight = s.bytes_inflight + c.length := by
  cases rel <;> simp [offerChunk]

theorem offerChunks_bytes (coins : Nat → Bool) :
    ∀ (chunks : List (List Nat)) (i : Nat) (s : Sender),
      (offerChunks coins i chunks s).bytes_inflight
        = s.bytes_inflight + (chunks.map List.length).sum := by
  intro chunks
  induction chunks with
  | nil => intro i s; simp [offerChunks]
  | cons c rest ih =>
      intro i s
      simp only [offerChunks, List.map_cons, List.sum_cons]
      rw [ih, offerChunk_bytes]
      omega

theorem offerChunks_rel_mem (coins : Nat → Bool) :
    ∀ (chunks : List (List Nat)) (i : Nat) (s : Sender) (seg : Seg),
      seg ∈ (offerChunks coins i chunks s).inflight_rel →
      seg ∈ s.inflight_rel ∨ ∃ c ∈ chunks, seg.payload = c := by
  intro chunks
  induction chunks with
  | nil => intro i s seg h; exact Or.inl h
  | cons c rest ih =>
      intro i s seg h
      rcases ih (i + 1) (offerChunk s (coins i) c) seg h with h2 | h2
      · cases hc : coins i <;> rw [hc] at h2 <;> simp [offerChunk] at h2
        · exact Or.inl h2
        · rcases h2 with h2 | h2
          · exact Or.inl h2
          · exact Or.inr ⟨c, by simp, by rw [h2]⟩
      · rcases h2 with ⟨d, hd, hpd⟩
        exact Or.inr ⟨d, by simp [hd], hpd⟩

theorem offerChunks_unrel_mem (coins : Nat → Bool) :
    ∀ (chunks : List (List Nat)) (i : Nat) (s : Sender) (seg : Seg),
      seg ∈ (offerChunks coins i chunks s).inflight_unrel →
      seg ∈ s.inflight_unrel ∨ ∃ c ∈ chunks, seg.payload = c := by
  intro chunks
  induction chunks with
  | nil => intro i s seg h; exact Or.inl h
  | cons c rest ih =>
      intro i s seg h
      rcases ih (i + 1) (offerChunk s (coins i) c) seg h with h2 | h2
      · cases hc : coins i <;> rw [hc] at h2 <;> simp [offerChunk] at h2
        · rcases h2 with h2 | h2
          · exact Or.inl h2
          · exact Or.inr ⟨c, by simp, by rw [h2]⟩
        · exact Or.inl h2
      · rcases h2 with ⟨d, hd, hpd⟩
        exact Or.inr ⟨d, by simp [hd], hpd⟩

/-! ## Claim theorems -/

/-- Claim C9: `offer(data)` accepts exactly
`min(len(data), max(window - bytes_inflight, 0))` bytes (0 when the
window is full or the input empty, both covered by the formula), adds
exactly that many bytes to `bytes_inflight` so that it never exceeds
`window` (when it did not already), and every enqueued segment carries
at most MSS payload bytes. -/
theorem offer_window (s : Sender) (coins : Nat → Bool) (data : List Nat) (hm : 0 < s.mss) :
    (s.offer coins data).1 = min data.length (s.win - s.bytes_inflight) ∧
    (s.offer coins data).2.bytes_inflight = s.bytes_inflight + (s.offer coins data).1 ∧
    (s.offer coins data).2.bytes_inflight ≤ max s.win s.bytes_inflight ∧
    (∀ seg ∈ (s.offer coins data).2.inflight_rel,
      seg ∈ s.inflight_rel ∨ seg.payload.length ≤ s.mss) ∧
    (∀ seg ∈ (s.offer coins data).2.inflight_unrel,
      seg ∈ s.inflight_unrel ∨ seg.payload.length ≤ s.mss) := by
  by_cases hd : data = []
  · subst hd
    have hres : ([] : List Nat).length = 0 := rfl
    simp only [Sender.offer, if_pos rfl]
    exact ⟨by simp, by simp, le_max_of_le_right le_rfl,
      fun seg h => Or.inl h, fun seg h => Or.inl h⟩
  · by_cases hs : s.win - s.bytes_inflight = 0
    · have hres : s.offer coins data = (0, s) := by
        rw [Sender.offer, if_neg hd, hs, if_pos rfl]
      rw [hres]
      exact ⟨by simp [hs], by simp, le_max_of_le_right le_rfl,
        fun seg h => Or.inl h, fun seg h => Or.inl h⟩
    · have hres : s.offer coins data =
          (min data.length (s.win - s.bytes_inflight),
            offerChunks coins 0
              (chunkify s.mss (data.take (min data.length (s.win - s.bytes_inflight)))) s) := by
        rw [Sender.offer, if_neg hd, if_neg hs]
      rw [hres]
      have hbytes : (offerChunks coins 0
          (chunkify s.mss (data.take (min data.length (s.win - s.bytes_inflight)))) s).bytes_inflight
          = s.bytes_inflight + min data.length (s.win - s.bytes_inflight) := by
        rw [offerChunks_bytes, chunkify_sum_length s.mss hm, List.length_take]
        omega
      refine ⟨rfl, hbytes, by rw [hbytes]; omega, ?_, ?_⟩
      · intro seg hseg
        rcases offerChunks_rel_mem coins _ 0 s seg hseg with h | ⟨c, hc, hpc⟩
        · exact Or.inl h
        · exact Or.inr (hpc ▸ chunkify_chunk_le s.mss _ c hc)
      · intro seg hseg
        rcases offerChunks_unrel_mem coins _ 0 s seg hseg with h | ⟨c, hc, hpc⟩
        · exact Or.inl h
        · exact Or.inr (hpc ▸ chunkify_chunk_le s.mss _ c hc)

/-- Witness for C9 at `Sender(mss=100, window=300)` offering 250
bytes: 250 are accepted. -/
theorem offer_window_witness :
    (0 : Nat) < (100 : Nat) ∧
    ((({ mss := 100, win := 300 } : Sender).offer (fun _ => true)
        (List.replicate 250 65)).1 = 250) := by
  refine ⟨by norm_num, ?_⟩
  have h := (offer_window ({ mss := 100, win := 300 } : Sender) (fun _ => true)
    (List.replicate 250 65) (by norm_num)).1
  rw [List.length_replicate] at h
  exact h.trans (by rfl)

/-- Claim C10: `Transport.recv(max_bytes)` pops the entire delivered
queue, returns only its first `max_bytes` bytes, and leaves the queue
empty, so the bytes beyond `max_bytes` are discarded and no later
`recv` (which can only return bytes delivered afterwards) returns
them. -/
theorem transport_recv_truncates (r : Receiver) (m : Nat) :
    (transportRecv r m).1 = r.delivered.take m ∧
    (transportRecv r m).2.delivered = [] ∧
    ((transportRecv r m).2.pop_deliverable).1 = [] := by
  refine ⟨rfl, rfl, rfl⟩

/-- Claim C2 (code violates it): after offering one byte routed
UNRELIABLE, flushing it and processing an empty ACK, `bytes_inflight`
is still 1 while no unacked reliable (or unreliable) segment remains:
the dead `to_free` path of `due_packets` never frees unreliable
segments, so their bytes are counted forever. -/
theorem bytes_inflight_conservation_fails :
    leakSender.bytes_inflight = 1 ∧
    ((leakSender.inflight_rel.filter (fun seg => !seg.acked)).map
      (fun seg => seg.payload.length)).sum = 0 ∧
    ((leakSender.inflight_unrel.filter (fun seg => !seg.acked)).map
      (fun seg => seg.payload.length)).sum = 0 := by
  refine ⟨by decide, by decide, by decide⟩

/-- Claim C3 (code violates its retirement part): the unreliable
segment is emitted exactly once, but after emission it is still present
in the unreliable in-flight map (merely marked acked) instead of being
removed: the `to_free` list in the source is never populated. -/
theorem unreliable_not_retired :
    unrelFlush.1.map (fun p => (p.channel_type, p.seq, p.payload))
      = [(ChannelType.UNRELIABLE, 0, [65])] ∧
    unrelFlush.2.inflight_unrel.map (fun seg => (seg.seq, seg.acked)) = [(0, true)] := by
  refine ⟨by decide, by decide⟩

/-- Claim C4: an RTT sample is taken on feedback with `ts_echo ≠ 0`
only when some reliable in-flight segment has `sent_ts = ts_echo` and
`retx_count = 0` (Karn: never for a retransmitted segment, whose
`retx_count > 0` makes the conjunction fail); when taken, the sample is
`max(now - ts_echo, 1)` ms, the first sample initializes
`srtt = sample` and `rttvar = sample / 2`, and later samples apply the
`alpha = 1/8`, `beta = 1/4` smoothing to the previous estimates. -/
theorem rtt_sampling_karn (s : Sender) (now ts_echo : Nat) :
    ((ts_echo = 0 ∨ ∀ seg ∈ s.inflight_rel, seg.sent_ts ≠ ts_echo ∨ seg.retx_count ≠ 0) →
      (s.maybe_update_rtt now ts_echo).rtt_cnt = s.rtt_cnt ∧
      (s.maybe_update_rtt now ts_echo).srtt = s.srtt ∧
      (s.maybe_update_rtt now ts_echo).rttvar = s.rttvar) ∧
    (ts_echo ≠ 0 →
      (∃ seg ∈ s.inflight_rel, seg.sent_ts = ts_echo ∧ seg.retx_count = 0) →
      (s.maybe_update_rtt now ts_echo).rtt_cnt = s.rtt_cnt + 1 ∧
      (s.srtt = none →
        (s.maybe_update_rtt now ts_echo).srtt
            = some ((max ((now : Int) - (ts_echo : Int)) 1 : Int) : Rat) ∧
        (s.maybe_update_rtt now ts_echo).rttvar
            = some (((max ((now : Int) - (ts_echo : Int)) 1 : Int) : Rat) / 2)) ∧
      (∀ v, s.srtt = some v →
        (s.maybe_update_rtt now ts_echo).rttvar
            = some ((1 - (1 : Rat)/4) * s.rttvar.getD 0 +
                ((1 : Rat)/4) * |v - ((max ((now : Int) - (ts_echo : Int)) 1 : Int) : Rat)|) ∧
        (s.maybe_update_rtt now ts_echo).srtt
            = some ((1 - (1 : Rat)/8) * v +
                ((1 : Rat)/8) * ((max ((now : Int) - (ts_echo : Int)) 1 : Int) : Rat)))) := by
  constructor
  · intro h
    unfold Sender.maybe_update_rtt
    by_cases h0 : ts_echo = 0
    · rw [if_pos h0]; exact ⟨rfl, rfl, rfl⟩
    · rw [if_neg h0]
      have hall : ∀ seg ∈ s.inflight_rel, seg.sent_ts ≠ ts_echo ∨ seg.retx_count ≠ 0 := by
        rcases h with h | h
        · exact absurd h h0
        · exact h
      have hf : s.inflight_rel.find?
          (fun seg => seg.sent_ts == ts_echo && seg.retx_count == 0) = none := by
        apply List.find?_eq_none.mpr
        intro seg hseg
        have := hall seg hseg
        simp only [Bool.and_eq_true, beq_iff_eq, not_and]
        intro h1
        rcases this with h2 | h2
        · exact absurd h1 h2
        · exact h2
      rw [hf]
      exact ⟨rfl, rfl, rfl⟩
  · intro h0 hex
    unfold Sender.maybe_update_rtt
    rw [if_neg h0]
    have hsome : (s.inflight_rel.find?
        (fun seg => seg.sent_ts == ts_echo && seg.retx_count == 0)).isSome := by
      rw [List.find?_isSome]
      obtain ⟨seg, hmem, h1, h2⟩ := hex
      exact ⟨seg, hmem, by simp [h1, h2]⟩
    obtain ⟨seg, hseg⟩ := Option.isSome_iff_exists.mp hsome
    rw [hseg]
    cases hsrtt : s.srtt with
    | none => simp [hsrtt]
    | some v => simp [hsrtt]

/-- Witness for C4 at a sender holding one unretransmitted reliable
segment sent at t = 5 ms, on feedback at t = 45 ms echoing 5: a sample
is counted. -/
theorem rtt_sampling_karn_witness :
    (5 : Nat) ≠ 0 ∧ (rttSender.maybe_update_rtt 45 5).rtt_cnt = rttSender.rtt_cnt + 1 := by
  refine ⟨by norm_num, ?_⟩
  have h := (rtt_sampling_karn rttSender 45 5).2 (by norm_num)
    ⟨{ seq := 0, «end» := 50, payload := List.replicate 50 65, sent_ts := 5 },
      by simp [rttSender], rfl, rfl⟩
  exact h.1

theorem ackUpTo_eq_map (up_to : Nat) (segs : List Seg) :
    ackUpTo up_to segs
      = segs.map (fun seg => { seg with acked := seg.acked || decide (seg.«end» ≤ up_to) }) := by
  unfold ackUpTo
  apply List.map_congr_left
  intro seg _
  by_cases h : seg.«end» ≤ up_to
  · simp [h]
  · cases seg; simp [h]

theorem applyBlocks_eq_map (bs : List SackBlock) (segs : List Seg) :
    applyBlocks bs segs = segs.map (blockFold bs) := by
  induction bs generalizing segs with
  | nil =>
      rw [applyBlocks]
      have h : blockFold ([] : List SackBlock) = fun seg => seg := by funext seg; rfl
      rw [h, List.map_id']
  | cons b rest ih =>
      rw [applyBlocks, ih, ackRange, List.map_map]
      rfl

theorem blockFold_spec (bs : List SackBlock) (seg : Seg) :
    blockFold bs seg
      = { seg with acked := (seg.acked ||
          bs.any (fun b => decide (seg.seq < b.«end») && decide (b.start < seg.«end»))) } := by
  induction bs generalizing seg with
  | nil => cases seg; simp [blockFold]
  | cons b rest ih =>
      have hstep : blockFold (b :: rest) seg
          = blockFold rest (if seg.acked then seg
              else if seg.seq ≥ b.«end» ∨ seg.«end» ≤ b.start then seg
              else { seg with acked := true }) := rfl
      rw [hstep]
      by_cases ha : seg.acked
      · rw [if_pos ha, ih]
        cases seg
        simp_all
      · rw [if_neg ha]
        by_cases hov : seg.seq ≥ b.«end» ∨ seg.«end» ≤ b.start
        · rw [if_pos hov, ih]
          have hfalse : (decide (seg.seq < b.«end») && decide (b.start < seg.«end»)) = false := by
            rcases hov with h | h
            · have : ¬ seg.seq < b.«end» := by omega
              simp [this]
            · have : ¬ b.start < seg.«end» := by omega
              simp [this]
          cases seg
          simp_all
        · rw [if_neg hov, ih]
          push_neg at hov
          have htrue : (decide (seg.seq < b.«end») && decide (b.start < seg.«end»)) = true := by
            simp only [Bool.and_eq_true, decide_eq_true_eq]
            omega
          cases seg
          simp_all

theorem map_normRto_rtoSet (l : List Seg) (R : Nat) :
    ((l.map (fun seg => if seg.retx_count = 0 then { seg with rto_ms := R } else seg)).map normRto)
      = l.map normRto := by
  rw [List.map_map]
  apply List.map_congr_left
  intro x _
  cases x with
  | mk sq en pl ch st ak rc rt => by_cases hr : rc = 0 <;> simp [normRto, hr]

theorem maybe_update_rtt_core (s : Sender) (now te : Nat) :
    (s.maybe_update_rtt now te).inflight_rel.map normRto = s.inflight_rel.map normRto ∧
    (s.maybe_update_rtt now te).bytes_inflight = s.bytes_inflight ∧
    (s.maybe_update_rtt now te).sack_enabled = s.sack_enabled := by
  unfold Sender.maybe_update_rtt
  by_cases h0 : te = 0
  · rw [if_pos h0]; exact ⟨rfl, rfl, rfl⟩
  · rw [if_neg h0]
    cases hf : s.inflight_rel.find? (fun seg => seg.sent_ts == te && seg.retx_count == 0) with
    | none => exact ⟨rfl, rfl, rfl⟩
    | some seg0 =>
        cases hsrtt : s.srtt with
        | none => exact ⟨map_normRto_rtoSet _ _, rfl, rfl⟩
        | some v => exact ⟨map_normRto_rtoSet _ _, rfl, rfl⟩

theorem map_normRto_acked {l1 l2 : List Seg} (h : l1.map normRto = l2.map normRto)
    (hu : ∀ seg ∈ l2, seg.acked = false) : ∀ seg ∈ l1, seg.acked = false := by
  intro seg hseg
  have hmem : normRto seg ∈ l2.map normRto := by
    rw [← h]; exact List.mem_map_of_mem _ hseg
  obtain ⟨t, ht, heq⟩ := List.mem_map.mp hmem
  have hack : t.acked = seg.acked := by
    simpa [normRto] using congrArg Seg.acked heq
  rw [← hack]
  exact hu t ht

theorem filter_normRto_transfer (P : Seg → Bool) (hP : ∀ seg, P (normRto seg) = P seg)
    {l1 l2 : List Seg} (h : l1.map normRto = l2.map normRto) :
    (l1.filter P).map normRto = (l2.filter P).map normRto ∧
    (l1.filter P).map (fun seg => seg.payload.length)
      = (l2.filter P).map (fun seg => seg.payload.length) := by
  have k1 : ∀ (l : List Seg), (l.filter P).map normRto = (l.map normRto).filter P := by
    intro l
    rw [List.filter_map]
    congr 1
    apply List.filter_congr
    intro x _
    exact (hP x).symm
  have k2 : ∀ (l : List Seg), (l.filter P).map (fun seg => seg.payload.length)
      = ((l.map normRto).filter P).map (fun seg => seg.payload.length) := by
    intro l
    rw [List.filter_map, List.map_map]
    have : ((fun seg => seg.payload.length) ∘ normRto) = fun seg : Seg => seg.payload.length := by
      funext x; rfl
    rw [this]
    congr 1
    apply List.filter_congr
    intro x _
    exact (hP x).symm
  refine ⟨?_, ?_⟩
  · rw [k1 l1, k1 l2, h]
  · rw [k2 l1, k2 l2, h]

/-- Counterexample for C5 as stated: with `sack_enabled=False`, a SACK
block covering the only reliable in-flight segment `[0, 3)` marks and
removes nothing, and `bytes_inflight` stays 3; the claim predicts the
overlapped segment is acked and removed. -/
theorem on_feedback_sack_gate_cex :
    sackGateSender.inflight_rel.map (fun seg => (seg.seq, seg.«end», seg.acked))
      = [(0, 3, false)] ∧
    sackGateSender.bytes_inflight = 3 := by
  exact ⟨by decide, by decide⟩

/-- Claim C5 (amended: SACK blocks take effect only when the sender's
`sack_enabled` is true, as the source gates them): for an ACK or SACK
given to `on_feedback` on a state whose reliable segments are all
unacked, exactly the segments with `end ≤ pkt.ack` — plus, for a SACK
with `sack_enabled`, those overlapping some block — are marked and
removed from the reliable in-flight map, and `bytes_inflight` drops by
the total payload length of the removed segments.  The remaining map is
compared up to `normRto` because the RTT update may refresh the RTO of
the kept segments. -/
theorem on_feedback_retires (s : Sender) (now : Nat) (pkt : Packet)
    (ht : pkt.typ = .ACK ∨ pkt.typ = .SACK)
    (hu : ∀ seg ∈ s.inflight_rel, seg.acked = false) :
    ((s.on_feedback now pkt).inflight_rel.map normRto
      = (s.inflight_rel.filter
          (fun seg => !(ackedByFeedback s.sack_enabled pkt seg))).map normRto) ∧
    (s.on_feedback now pkt).bytes_inflight
      = s.bytes_inflight -
        ((s.inflight_rel.filter (ackedByFeedback s.sack_enabled pkt)).map
          (fun seg => seg.payload.length)).sum := by
  obtain ⟨hcr, hcb, hcs⟩ := maybe_update_rtt_core s now pkt.ts_echo
  have hu1 : ∀ seg ∈ (s.maybe_update_rtt now pkt.ts_echo).inflight_rel, seg.acked = false :=
    map_normRto_acked hcr hu
  have hP : ∀ seg, ackedByFeedback s.sack_enabled pkt (normRto seg)
      = ackedByFeedback s.sack_enabled pkt seg := fun seg => rfl
  have hPn : ∀ seg, (!(ackedByFeedback s.sack_enabled pkt (normRto seg)))
      = !(ackedByFeedback s.sack_enabled pkt seg) := fun seg => rfl
  -- the marked map is a pointwise update of the rtt-updated in-flight list
  have hRE : (if pkt.typ = .SACK ∧ (s.maybe_update_rtt now pkt.ts_echo).sack_enabled
        then applyBlocks pkt.sack
          (ackUpTo pkt.ack (s.maybe_update_rtt now pkt.ts_echo).inflight_rel)
        else ackUpTo pkt.ack (s.maybe_update_rtt now pkt.ts_echo).inflight_rel)
      = (s.maybe_update_rtt now pkt.ts_echo).inflight_rel.map
          (fun seg => { seg with
            acked := seg.acked || ackedByFeedback s.sack_enabled pkt seg }) := by
    by_cases hgate : pkt.typ = .SACK ∧ (s.maybe_update_rtt now pkt.ts_echo).sack_enabled
    · rw [if_pos hgate, ackUpTo_eq_map, applyBlocks_eq_map, List.map_map]
      apply List.map_congr_left
      intro seg _
      have := blockFold_spec pkt.sack
        { seg with acked := seg.acked || decide (seg.«end» ≤ pkt.ack) }
      rw [Function.comp_apply, this]
      have hen : s.sack_enabled = true := by rw [← hcs]; exact hgate.2
      cases seg
      simp [ackedByFeedback, hgate.1, hen, Bool.or_assoc]
    · rw [if_neg hgate, ackUpTo_eq_map]
      apply List.map_congr_left
      intro seg _
      have hnosack : ((decide (pkt.typ = .SACK) && s.sack_enabled) &&
          pkt.sack.any (fun b => decide (seg.seq < b.«end») && decide (b.start < seg.«end»)))
            = false := by
        rcases Decidable.not_and_iff_or_not.mp hgate with h | h
        · simp [h]
        · have : s.sack_enabled = false := by
            rw [← hcs]; exact Bool.not_eq_true _ ▸ (by simpa using h)
          simp [this]
      cases seg
      simp [ackedByFeedback, hnosack]
  -- unfold on_feedback and compute
  rw [Sender.on_feedback, if_pos ht]
  simp only [hRE]
  constructor
  · rw [List.filter_map, List.map_map]
    have hfc : (s.maybe_update_rtt now pkt.ts_echo).inflight_rel.filter
        ((fun seg => !seg.acked) ∘ (fun seg => { seg with
          acked := seg.acked || ackedByFeedback s.sack_enabled pkt seg }))
        = (s.maybe_update_rtt now pkt.ts_echo).inflight_rel.filter
            (fun seg => !(ackedByFeedback s.sack_enabled pkt seg)) := by
      apply List.filter_congr
      intro x hx
      simp [hu1 x hx]
    rw [hfc]
    have hmc : ((s.maybe_update_rtt now pkt.ts_echo).inflight_rel.filter
          (fun seg => !(ackedByFeedback s.sack_enabled pkt seg))).map
          (normRto ∘ (fun seg => { seg with
            acked := seg.acked || ackedByFeedback s.sack_enabled pkt seg }))
        = ((s.maybe_update_rtt now pkt.ts_echo).inflight_rel.filter
            (fun seg => !(ackedByFeedback s.sack_enabled pkt seg))).map normRto := by
      apply List.map_congr_left
      intro x hx
      obtain ⟨hx1, hx2⟩ := List.mem_filter.mp hx
      have hak : x.acked = false := hu1 x hx1
      have hnb : ackedByFeedback s.sack_enabled pkt x = false := by
        simpa using hx2
      cases x
      simp_all [normRto]
    rw [hmc]
    exact (filter_normRto_transfer _ hPn hcr).1
  · rw [hcb, List.filter_map, List.map_map]
    have hfc : (s.maybe_update_rtt now pkt.ts_echo).inflight_rel.filter
        ((fun seg => seg.acked) ∘ (fun seg => { seg with
          acked := seg.acked || ackedByFeedback s.sack_enabled pkt seg }))
        = (s.maybe_update_rtt now pkt.ts_echo).inflight_rel.filter
            (ackedByFeedback s.sack_enabled pkt) := by
      apply List.filter_congr
      intro x hx
      simp [hu1 x hx]
    rw [hfc]
    have hmc : ((s.maybe_update_rtt now pkt.ts_echo).inflight_rel.filter
          (ackedByFeedback s.sack_enabled pkt)).map
          ((fun seg => seg.payload.length) ∘ (fun seg => { seg with
            acked := seg.acked || ackedByFeedback s.sack_enabled pkt seg }))
        = ((s.maybe_update_rtt now pkt.ts_echo).inflight_rel.filter
            (ackedByFeedback s.sack_enabled pkt)).map (fun seg => seg.payload.length) := by
      apply List.map_congr_left
      intro x _
      rfl
    rw [hmc, (filter_normRto_transfer _ hP hcr).2]

/-- Witness for C5 (amended) at `rttSender` receiving a SACK whose
block covers its only segment. -/
theorem on_feedback_retires_witness :
    (sackFull.typ = .ACK ∨ sackFull.typ = .SACK) ∧
    (∀ seg ∈ rttSender.inflight_rel, seg.acked = false) ∧
    (rttSender.on_feedback 6 sackFull).inflight_rel.map normRto
      = (rttSender.inflight_rel.filter
          (fun seg => !(ackedByFeedback rttSender.sack_enabled sackFull seg))).map normRto :=
  ⟨Or.inr rfl, by decide,
    (on_feedback_retires rttSender 6 sackFull (Or.inr rfl) (by decide)).1⟩

theorem dueUnrel_pkts_mem (now : Nat) :
    ∀ (l : List Seg) (p : Packet), p ∈ (dueUnrel now l).1 → ∃ seg ∈ l, p = mkDataPkt now seg := by
  intro l
  induction l with
  | nil => intro p hp; simp [dueUnrel] at hp
  | cons seg rest ih =>
      intro p hp
      rcases hq : dueUnrel now rest with ⟨pkts, segs, fs, rx⟩
      rw [hq] at ih
      simp only [dueUnrel, hq] at hp
      by_cases ha : seg.acked
      · rw [if_pos ha] at hp
        obtain ⟨t, ht, hpt⟩ := ih p hp
        exact ⟨t, List.mem_cons_of_mem _ ht, hpt⟩
      · rw [if_neg ha] at hp
        by_cases hf : seg.sent_ts = 0
        · rw [if_pos hf] at hp
          have hp2 : p ∈ mkDataPkt now seg :: pkts := hp
          rcases List.mem_cons.mp hp2 with h | h
          · exact ⟨seg, List.mem_cons_self _ _, h⟩
          · obtain ⟨t, ht, hpt⟩ := ih p h
            exact ⟨t, List.mem_cons_of_mem _ ht, hpt⟩
        · rw [if_neg hf] at hp
          have hp2 : p ∈ mkDataPkt now seg :: pkts := hp
          rcases List.mem_cons.mp hp2 with h | h
          · exact ⟨seg, List.mem_cons_self _ _, h⟩
          · obtain ⟨t, ht, hpt⟩ := ih p h
            exact ⟨t, List.mem_cons_of_mem _ ht, hpt⟩

theorem dueUnrel_retx_count (now : Nat) :
    ∀ (l : List Seg),
      (dueUnrel now l).2.2.2 = l.countP (fun seg => !seg.acked && decide (seg.sent_ts ≠ 0)) := by
  intro l
  induction l with
  | nil => simp [dueUnrel]
  | cons seg rest ih =>
      rcases hq : dueUnrel now rest with ⟨pkts, segs, fs, rx⟩
      rw [hq] at ih
      have ih2 : rx = rest.countP (fun seg => !seg.acked && decide (seg.sent_ts ≠ 0)) := ih
      simp only [decide_not] at ih2
      simp only [dueUnrel, hq]
      rw [List.countP_cons]
      by_cases ha : seg.acked
      · rw [if_pos ha]
        simp [ha, ih2]
      · rw [if_neg ha]
        by_cases hf : seg.sent_ts = 0
        · rw [if_pos hf]
          simp [ha, hf, ih2]
        · rw [if_neg hf]
          simp [ha, hf, ih2]

/-- Claim C6: in every `due_packets` call on a state whose reliable
segments are unacked and whose maps route segments to their own
channel (the reachable-state invariants), the emitted list is the
unreliable packets followed by the reliable ones; the reliable ones are
in ascending `seq` order and are exactly (as a multiset of
(seq, ts_send, payload), each stamped with `now`) the reliable
segments that are due — never sent, or `now - sent_ts ≥ rto_ms`; a
non-due segment survives unchanged, a due first send only gets
`sent_ts = now`, a due retransmission additionally increments
`retx_count` and doubles `rto_ms` capped at `MAXIMUM_RTO_MS = 8000`;
and `retx_total` grows by the number of retransmissions emitted. -/
theorem due_packets_spec (s : Sender) (now : Nat)
    (hu : ∀ seg ∈ s.inflight_rel, seg.acked = false)
    (hcr : ∀ seg ∈ s.inflight_rel, seg.chan = .RELIABLE)
    (hcu : ∀ seg ∈ s.inflight_unrel, seg.chan = .UNRELIABLE) :
    ∃ up rp, (s.due_packets now).1 = up ++ rp ∧
      (∀ p ∈ up, p.channel_type = .UNRELIABLE) ∧
      (∀ p ∈ rp, p.channel_type = .RELIABLE) ∧
      rp.Pairwise (fun p q => p.seq ≤ q.seq) ∧
      (rp.map (fun p => (p.seq, p.ts_send, p.payload))).Perm
        ((s.inflight_rel.filter (Seg.due now)).map (fun seg => (seg.seq, now, seg.payload))) ∧
      (∀ seg ∈ s.inflight_rel,
        (¬ Seg.due now seg = true → seg ∈ (s.due_packets now).2.inflight_rel) ∧
        (Seg.due now seg = true → seg.sent_ts = 0 →
          { seg with sent_ts := now } ∈ (s.due_packets now).2.inflight_rel) ∧
        (Seg.due now seg = true → seg.sent_ts ≠ 0 →
          { seg with sent_ts := now, retx_count := seg.retx_count + 1,
                     rto_ms := min (seg.rto_ms * 2) MAXIMUM_RTO_MS }
            ∈ (s.due_packets now).2.inflight_rel)) ∧
      (s.due_packets now).2.retx_total = s.retx_total
        + s.inflight_unrel.countP (fun seg => !seg.acked && decide (seg.sent_ts ≠ 0))
        + s.inflight_rel.countP (fun seg => Seg.due now seg && decide (seg.sent_ts ≠ 0)) := by
  rcases hq : dueUnrel now s.inflight_unrel with ⟨upkts, usegs, uf, urx⟩
  have hperm : (List.insertionSort segLe s.inflight_rel).Perm s.inflight_rel :=
    List.perm_insertionSort segLe s.inflight_rel
  have husort : ∀ seg ∈ List.insertionSort segLe s.inflight_rel, seg.acked = false :=
    fun seg hseg => hu seg (hperm.mem_iff.mp hseg)
  have hsorted : List.Sorted segLe (List.insertionSort segLe s.inflight_rel) :=
    List.sorted_insertionSort segLe s.inflight_rel
  have hfs : (List.insertionSort segLe s.inflight_rel).filter
        (fun seg => !seg.acked && Seg.due now seg)
      = (List.insertionSort segLe s.inflight_rel).filter (Seg.due now) := by
    apply List.filter_congr
    intro x hx
    simp [husort x hx]
  have hres1 : (s.due_packets now).1 = upkts ++
      (((List.insertionSort segLe s.inflight_rel).filter (Seg.due now)).map (mkDataPkt now)) := by
    simp only [Sender.due_packets, hq, hfs]
  have hres2 : (s.due_packets now).2.inflight_rel = s.inflight_rel.map (relStep now) := by
    simp only [Sender.due_packets, hq]
  have hres3 : (s.due_packets now).2.retx_total = s.retx_total + urx +
      (((List.insertionSort segLe s.inflight_rel).filter (Seg.due now)).filter
        (fun seg => decide (seg.sent_ts ≠ 0))).length := by
    simp only [Sender.due_packets, hq, hfs]
  refine ⟨upkts,
    ((List.insertionSort segLe s.inflight_rel).filter (Seg.due now)).map (mkDataPkt now),
    hres1, ?_, ?_, ?_, ?_, ?_, ?_⟩
  · intro p hp
    obtain ⟨t, ht, hpt⟩ := dueUnrel_pkts_mem now s.inflight_unrel p (by rw [hq]; exact hp)
    rw [hpt]
    exact hcu t ht
  · intro p hp
    obtain ⟨t, ht, hpt⟩ := List.mem_map.mp hp
    have := hcr t (hperm.mem_iff.mp (List.mem_filter.mp ht).1)
    rw [← hpt]
    exact this
  · rw [List.pairwise_map]
    exact ((hsorted.filter (Seg.due now)).imp (fun h => h))
  · rw [List.map_map]
    have hcomp : ((fun p : Packet => (p.seq, p.ts_send, p.payload)) ∘ mkDataPkt now)
        = fun seg : Seg => (seg.seq, now, seg.payload) := by
      funext x; rfl
    rw [hcomp]
    exact (hperm.filter (Seg.due now)).map _
  · intro seg hseg
    have hak : seg.acked = false := hu seg hseg
    refine ⟨?_, ?_, ?_⟩
    · intro hnd
      rw [hres2]
      have : relStep now seg = seg := by
        simp [relStep, hak, hnd]
      rw [← this]
      exact List.mem_map_of_mem _ hseg
    · intro hd hz
      rw [hres2]
      have : relStep now seg = { seg with sent_ts := now } := by
        simp [relStep, hak, hd, sendUpdate, hz]
      rw [← this]
      exact List.mem_map_of_mem _ hseg
    · intro hd hz
      rw [hres2]
      have : relStep now seg =
          { seg with sent_ts := now, retx_count := seg.retx_count + 1,
                     rto_ms := min (seg.rto_ms * 2) MAXIMUM_RTO_MS } := by
        simp [relStep, hak, hd, sendUpdate, hz]
      rw [← this]
      exact List.mem_map_of_mem _ hseg
  · rw [hres3]
    have hurx : urx = s.inflight_unrel.countP (fun seg => !seg.acked && decide (seg.sent_ts ≠ 0)) := by
      have := dueUnrel_retx_count now s.inflight_unrel
      rw [hq] at this
      exact this
    have hlen : (((List.insertionSort segLe s.inflight_rel).filter (Seg.due now)).filter
          (fun seg => decide (seg.sent_ts ≠ 0))).length
        = s.inflight_rel.countP (fun seg => Seg.due now seg && decide (seg.sent_ts ≠ 0)) := by
      rw [← List.countP_eq_length_filter, List.countP_filter]
      have := (hperm.countP_eq (fun seg => decide (seg.sent_ts ≠ 0) && Seg.due now seg))
      rw [this]
      apply List.countP_congr
      intro x _
      simp [Bool.and_comm]
    rw [hurx, hlen]

/-- Witness for C6 at `rttSender` (one reliable segment sent at
t = 5 ms with RTO 1000 ms) at `now = 1005`, where it is due again. -/
theorem due_packets_spec_witness :
    (∀ seg ∈ rttSender.inflight_rel, seg.acked = false) ∧
    (∃ up rp, (rttSender.due_packets 1005).1 = up ++ rp ∧
      (∀ p ∈ up, p.channel_type = .UNRELIABLE) ∧
      (∀ p ∈ rp, p.channel_type = .RELIABLE) ∧
      rp.Pairwise (fun p q => p.seq ≤ q.seq) ∧
      (rp.map (fun p => (p.seq, p.ts_send, p.payload))).Perm
        ((rttSender.inflight_rel.filter (Seg.due 1005)).map
          (fun seg => (seg.seq, 1005, seg.payload))) ∧
      (∀ seg ∈ rttSender.inflight_rel,
        (¬ Seg.due 1005 seg = true → seg ∈ (rttSender.due_packets 1005).2.inflight_rel) ∧
        (Seg.due 1005 seg = true → seg.sent_ts = 0 →
          { seg with sent_ts := 1005 } ∈ (rttSender.due_packets 1005).2.inflight_rel) ∧
        (Seg.due 1005 seg = true → seg.sent_ts ≠ 0 →
          { seg with sent_ts := 1005, retx_count := seg.retx_count + 1,
                     rto_ms := min (seg.rto_ms * 2) MAXIMUM_RTO_MS }
            ∈ (rttSender.due_packets 1005).2.inflight_rel)) ∧
      (rttSender.due_packets 1005).2.retx_total = rttSender.retx_total
        + rttSender.inflight_unrel.countP (fun seg => !seg.acked && decide (seg.sent_ts ≠ 0))
        + rttSender.inflight_rel.countP
            (fun seg => Seg.due 1005 seg && decide (seg.sent_ts ≠ 0))) :=
  ⟨by decide, due_packets_spec rttSender 1005 (by decide) (by decide) (by decide)⟩

theorem mergeSpans_spec :
    ∀ (rest : List (Nat × Nat)) (cs ce : Nat),
      cs < ce →
      (∀ p ∈ rest, p.1 < p.2) →
      List.Pairwise (fun a b : Nat × Nat => a.1 ≤ b.1) rest →
      (∀ p ∈ rest, cs ≤ p.1) →
      (∀ b ∈ mergeSpans (cs, ce) rest, cs ≤ b.start ∧ b.start < b.«end») ∧
      List.Pairwise (fun b1 b2 : SackBlock => b1.«end» < b2.start) (mergeSpans (cs, ce) rest) := by
  intro rest
  induction rest with
  | nil =>
      intro cs ce hlt _ _ _
      constructor
      · intro b hb
        have : b = ⟨cs, ce⟩ := by simpa [mergeSpans] using hb
        subst this
        exact ⟨le_rfl, hlt⟩
      · simp [mergeSpans]
  | cons sp rest2 ih =>
      intro cs ce hlt hval hsorted hlow
      obtain ⟨s, e⟩ := sp
      rw [mergeSpans]
      by_cases hle : s ≤ ce
      · rw [if_pos hle]
        have hse : s < e := hval (s, e) (List.mem_cons_self _ _)
        refine (ih cs (max ce e) (lt_of_lt_of_le hlt (le_max_left _ _)) ?_ ?_ ?_)
        · exact fun p hp => hval p (List.mem_cons_of_mem _ hp)
        · exact (List.pairwise_cons.mp hsorted).2
        · exact fun p hp => hlow p (List.mem_cons_of_mem _ hp)
      · rw [if_neg hle]
        push_neg at hle
        have hse : s < e := hval (s, e) (List.mem_cons_self _ _)
        have hcs : cs ≤ s := hlow (s, e) (List.mem_cons_self _ _)
        have hrest_ge : ∀ p ∈ rest2, s ≤ p.1 := (List.pairwise_cons.mp hsorted).1
        have hih := ih s e hse (fun p hp => hval p (List.mem_cons_of_mem _ hp))
          (List.pairwise_cons.mp hsorted).2 hrest_ge
        constructor
        · intro b hb
          rcases List.mem_cons.mp hb with h | h
          · subst h; exact ⟨le_rfl, hlt⟩
          · have := hih.1 b h
            exact ⟨le_trans hcs this.1, this.2⟩
        · rw [List.pairwise_cons]
          refine ⟨?_, hih.2⟩
          intro b hb
          have := (hih.1 b hb).1
          calc (⟨cs, ce⟩ : SackBlock).«end» = ce := rfl
            _ < s := hle
            _ ≤ b.start := this

/-- Counterexample for C8 as stated: from a fresh receiver fed
`seq=3 len=5`, `seq=5 len=10`, `seq=0 len=3`, the third feedback is a
SACK with `ack = rcv_nxt = 8` and the single block `[8, 15)`, whose
`start` equals `rcv_nxt` instead of lying strictly above it (the entry
keyed 5 went stale when `rcv_nxt` jumped to 8 and is clipped to
exactly `rcv_nxt`). -/
theorem sack_block_at_rcv_nxt_cex :
    staleGapResult.map
        (fun x => x.2.map (fun p => (p.typ, p.ack, p.sack.map (fun b => (b.start, b.«end»)))))
      = some (some (.SACK, 8, [(8, 15)])) ∧
    staleGapResult.map (fun x => x.1.rcv_nxt) = some 8 := by
  exact ⟨by decide, by decide⟩

/-- Claim C8 (amended: block starts are at least `rcv_nxt`, not
strictly above it — a stale buffered entry overlapping `rcv_nxt` is
clipped to start exactly there): every SACK feedback packet the
receiver emits lists at most `min(4, 32)` blocks, each with
`start < end` and `start ≥ rcv_nxt`, pairwise non-overlapping and
sorted by `start` descending. -/
theorem sack_blocks_valid (r : Receiver) (ts_echo : Nat)
    (hsack : (r.feedback ts_echo).typ = .SACK) :
    (r.feedback ts_echo).sack.length ≤ min 4 32 ∧
    (∀ b ∈ (r.feedback ts_echo).sack, b.start < b.«end» ∧ r.rcv_nxt ≤ b.start) ∧
    (r.feedback ts_echo).sack.Pairwise
      (fun b1 b2 => b1.«end» ≤ b2.start ∨ b2.«end» ≤ b1.start) ∧
    (r.feedback ts_echo).sack.Pairwise (fun b1 b2 => b2.start ≤ b1.start) := by
  have main : ∀ (limit : Nat),
      (r.build_sack_blocks limit).length ≤ min limit MAX_SACK_BLOCKS ∧
      (∀ b ∈ r.build_sack_blocks limit, b.start < b.«end» ∧ r.rcv_nxt ≤ b.start) ∧
      (r.build_sack_blocks limit).Pairwise
        (fun b1 b2 => b1.«end» ≤ b2.start ∨ b2.«end» ≤ b1.start) ∧
      (r.build_sack_blocks limit).Pairwise (fun b1 b2 => b2.start ≤ b1.start) := by
    intro limit
    by_cases hen : r.sack_enabled
    · have hunfold : r.build_sack_blocks limit =
          (match List.insertionSort spanLe (r.buf.filterMap (fun sp =>
              if sp.1 + sp.2.length ≤ r.rcv_nxt then none
              else if max sp.1 r.rcv_nxt < sp.1 + sp.2.length
                then some (max sp.1 r.rcv_nxt, sp.1 + sp.2.length) else none)) with
            | [] => []
            | sp :: rest =>
                (List.insertionSort blockGe (mergeSpans sp rest)).take
                  (min limit MAX_SACK_BLOCKS)) := by
        rw [Receiver.build_sack_blocks, if_neg (by simpa using hen)]
      rw [hunfold]
      have hspan : ∀ p ∈ r.buf.filterMap (fun sp =>
          if sp.1 + sp.2.length ≤ r.rcv_nxt then none
          else if max sp.1 r.rcv_nxt < sp.1 + sp.2.length
            then some (max sp.1 r.rcv_nxt, sp.1 + sp.2.length) else none),
          r.rcv_nxt ≤ p.1 ∧ p.1 < p.2 := by
        intro p hp
        obtain ⟨sp, hmem, heq⟩ := List.mem_filterMap.mp hp
        by_cases h1 : sp.1 + sp.2.length ≤ r.rcv_nxt
        · rw [if_pos h1] at heq; cases heq
        · rw [if_neg h1] at heq
          by_cases h2 : max sp.1 r.rcv_nxt < sp.1 + sp.2.length
          · rw [if_pos h2] at heq
            cases heq
            exact ⟨le_max_right _ _, h2⟩
          · rw [if_neg h2] at heq; cases heq
      cases hs : List.insertionSort spanLe (r.buf.filterMap (fun sp =>
          if sp.1 + sp.2.length ≤ r.rcv_nxt then none
          else if max sp.1 r.rcv_nxt < sp.1 + sp.2.length
            then some (max sp.1 r.rcv_nxt, sp.1 + sp.2.length) else none)) with
      | nil => simp
      | cons sp rest =>
          have hperm := List.perm_insertionSort spanLe (r.buf.filterMap (fun sp =>
            if sp.1 + sp.2.length ≤ r.rcv_nxt then none
            else if max sp.1 r.rcv_nxt < sp.1 + sp.2.length
              then some (max sp.1 r.rcv_nxt, sp.1 + sp.2.length) else none))
          rw [hs] at hperm
          have hsortmem : ∀ p ∈ sp :: rest, r.rcv_nxt ≤ p.1 ∧ p.1 < p.2 :=
            fun p hp => hspan p (hperm.mem_iff.mp hp)
          have hsorted := List.sorted_insertionSort spanLe (r.buf.filterMap (fun sp =>
            if sp.1 + sp.2.length ≤ r.rcv_nxt then none
            else if max sp.1 r.rcv_nxt < sp.1 + sp.2.length
              then some (max sp.1 r.rcv_nxt, sp.1 + sp.2.length) else none))
          rw [hs] at hsorted
          obtain ⟨hhead, htail⟩ := List.pairwise_cons.mp hsorted
          have hmerge := mergeSpans_spec rest sp.1 sp.2
            (hsortmem sp (List.mem_cons_self _ _)).2
            (fun p hp => (hsortmem p (List.mem_cons_of_mem _ hp)).2)
            (htail.imp (fun h => by
              rcases h with h | h
              · exact le_of_lt h
              · exact le_of_eq h.1))
            (fun p hp => by
              rcases hhead p hp with h | h
              · exact le_of_lt h
              · exact le_of_eq h.1)
          have hdperm := List.perm_insertionSort blockGe (mergeSpans (sp.1, sp.2) rest)
          have hdsort := List.sorted_insertionSort blockGe (mergeSpans (sp.1, sp.2) rest)
          have htake := List.take_sublist (min limit MAX_SACK_BLOCKS)
            (List.insertionSort blockGe (mergeSpans (sp.1, sp.2) rest))
          refine ⟨?_, ?_, ?_, ?_⟩
          · rw [List.length_take]
            exact min_le_left _ _
          · intro b hb
            have hb2 : b ∈ mergeSpans (sp.1, sp.2) rest :=
              hdperm.mem_iff.mp (htake.mem hb)
            have := hmerge.1 b hb2
            exact ⟨this.2, le_trans (hsortmem sp (List.mem_cons_self _ _)).1 this.1⟩
          · have hnv : (mergeSpans (sp.1, sp.2) rest).Pairwise
                (fun b1 b2 => b1.«end» ≤ b2.start ∨ b2.«end» ≤ b1.start) :=
              hmerge.2.imp (fun h => Or.inl (le_of_lt h))
            have hsym : ∀ {x y : SackBlock},
                (x.«end» ≤ y.start ∨ y.«end» ≤ x.start) →
                (y.«end» ≤ x.start ∨ x.«end» ≤ y.start) := fun h => h.symm
            have := (List.Perm.pairwise_iff hsym hdperm).mpr hnv
            exact this.sublist htake
          · exact (hdsort.sublist htake)
    · have hunfold : r.build_sack_blocks limit = [] := by
        rw [Receiver.build_sack_blocks, if_pos (by simpa using hen)]
      rw [hunfold]
      simp
  rw [Receiver.feedback] at hsack ⊢
  by_cases hc : r.build_sack_blocks 4 ≠ [] ∧ r.sack_enabled = true
  · rw [if_pos hc] at hsack ⊢
    exact main 4
  · rw [if_neg hc] at hsack
    cases hsack

/-- Witness for C8 at `staleGapReceiver` (buffer holds entries above
`rcv_nxt = 0`), which answers with a SACK. -/
theorem sack_blocks_valid_witness :
    (staleGapReceiver.feedback 0).typ = .SACK ∧
    (staleGapReceiver.feedback 0).sack.length ≤ min 4 32 :=
  ⟨by decide, (sack_blocks_valid staleGapReceiver 0 (by decide)).1⟩

theorem slice_append (σ : List Nat) (a b c : Nat) (hab : a ≤ b) (hbc : b ≤ c) :
    slice σ a b ++ slice σ b c = slice σ a c := by
  unfold slice
  have h1 : c - a = (b - a) + (c - b) := by omega
  rw [h1, List.take_add, List.drop_drop]
  have h2 : a + (b - a) = b := by omega
  rw [h2]

theorem slice_drop (σ : List Nat) (a b t : Nat) :
    (slice σ a b).drop t = slice σ (a + t) b := by
  unfold slice
  rw [List.drop_take, List.drop_drop]
  have : b - a - t = b - (a + t) := by omega
  rw [this]

theorem slice_length (σ : List Nat) (a b : Nat) (hb : b ≤ σ.length) :
    (slice σ a b).length = b - a := by
  unfold slice
  rw [List.length_take, List.length_drop]
  omega

theorem bufGet_mem : ∀ (l : List (Nat × List Nat)) (k : Nat) (v : List Nat),
    bufGet k l = some v → (k, v) ∈ l := by
  intro l
  induction l with
  | nil => intro k v h; simp [bufGet] at h
  | cons kv rest ih =>
      intro k v h
      obtain ⟨k2, v2⟩ := kv
      by_cases hk : k2 = k
      · simp only [bufGet, if_pos hk] at h
        cases h
        subst hk
        exact List.mem_cons_self _ _
      · simp only [bufGet, if_neg hk] at h
        exact List.mem_cons_of_mem _ (ih k v h)

theorem bufRemove_subset : ∀ (l : List (Nat × List Nat)) (k : Nat) (kv : Nat × List Nat),
    kv ∈ bufRemove k l → kv ∈ l := by
  intro l
  induction l with
  | nil => intro k kv h; simp [bufRemove] at h
  | cons hd rest ih =>
      intro k kv h
      obtain ⟨k2, v2⟩ := hd
      by_cases hk : k2 = k
      · simp only [bufRemove, if_pos hk] at h
        exact List.mem_cons_of_mem _ h
      · simp only [bufRemove, if_neg hk] at h
        rcases List.mem_cons.mp h with h2 | h2
        · exact h2 ▸ List.mem_cons_self _ _
        · exact List.mem_cons_of_mem _ (ih k kv h2)

theorem bufInsert_mem : ∀ (l : List (Nat × List Nat)) (k : Nat) (v : List Nat)
    (kv : Nat × List Nat), kv ∈ bufInsert k v l → kv = (k, v) ∨ kv ∈ l := by
  intro l
  induction l with
  | nil =>
      intro k v kv h
      simp only [bufInsert] at h
      exact Or.inl (List.mem_singleton.mp h)
  | cons hd rest ih =>
      intro k v kv h
      obtain ⟨k2, v2⟩ := hd
      by_cases hk : k2 = k
      · simp only [bufInsert, if_pos hk] at h
        rcases List.mem_cons.mp h with h2 | h2
        · exact Or.inl h2
        · exact Or.inr (List.mem_cons_of_mem _ h2)
      · simp only [bufInsert, if_neg hk] at h
        rcases List.mem_cons.mp h with h2 | h2
        · exact Or.inr (h2 ▸ List.mem_cons_self _ _)
        · rcases ih k v kv h2 with h3 | h3
          · exact Or.inl h3
          · exact Or.inr (List.mem_cons_of_mem _ h3)

theorem consumeGo_mono : ∀ (fuel : Nat) (r : Receiver),
    r.rcv_nxt ≤ (consumeGo fuel r).rcv_nxt := by
  intro fuel
  induction fuel with
  | zero => intro r; exact le_rfl
  | succ n ih =>
      intro r
      rw [consumeGo]
      cases hb : bufGet r.rcv_nxt r.buf with
      | none => exact le_rfl
      | some chunk =>
          show r.rcv_nxt ≤ (consumeGo n
            { r with buf := bufRemove r.rcv_nxt r.buf,
                     delivered := r.delivered ++ chunk,
                     rcv_nxt := r.rcv_nxt + chunk.length }).rcv_nxt
          have step := ih { r with buf := bufRemove r.rcv_nxt r.buf,
                                   delivered := r.delivered ++ chunk,
                                   rcv_nxt := r.rcv_nxt + chunk.length }
          have hmid : r.rcv_nxt ≤ r.rcv_nxt + chunk.length := Nat.le_add_right _ _
          exact le_trans hmid step

theorem consume_mono (r : Receiver) : r.rcv_nxt ≤ (consume_contiguous r).rcv_nxt :=
  consumeGo_mono r.buf.length r

theorem consumeGo_inv (σ : List Nat) (n0 : Nat) : ∀ (fuel : Nat) (r : Receiver),
    RecvInv σ n0 r → RecvInv σ n0 (consumeGo fuel r) := by
  intro fuel
  induction fuel with
  | zero => intro r h; exact h
  | succ n ih =>
      intro r hinv
      rw [consumeGo]
      cases hb : bufGet r.rcv_nxt r.buf with
      | none => exact hinv
      | some chunk =>
          obtain ⟨h0, h1, h2, h3⟩ := hinv
          have hmem := bufGet_mem r.buf r.rcv_nxt chunk hb
          obtain ⟨hch, hchlen⟩ := h3 (r.rcv_nxt, chunk) hmem
          simp only at hch hchlen
          apply ih
          refine ⟨le_trans h0 (Nat.le_add_right _ _), hchlen, ?_, ?_⟩
          · show r.delivered ++ chunk = slice σ n0 (r.rcv_nxt + chunk.length)
            rw [h2]
            nth_rewrite 1 [hch]
            exact slice_append σ n0 r.rcv_nxt (r.rcv_nxt + chunk.length) h0
              (Nat.le_add_right _ _)
          · intro kv hkv
            exact h3 kv (bufRemove_subset r.buf r.rcv_nxt kv hkv)

theorem on_data_inv (σ : List Nat) (n0 : Nat) (r : Receiver) (p : Packet)
    (res : Receiver × Option Packet)
    (hinv : RecvInv σ n0 r)
    (hpt : p.typ = .DATA) (hpc : p.channel_type = .RELIABLE)
    (hlen : p.seq + p.payload.length ≤ σ.length)
    (hsl : p.payload = slice σ p.seq (p.seq + p.payload.length))
    (hres : r.on_data p = some res) :
    RecvInv σ n0 res.1 := by
  simp only [Receiver.on_data] at hres
  rw [if_neg (by simp [hpt])] at hres
  rw [if_neg (by simp [hpc])] at hres
  by_cases hdup : p.seq + p.payload.length ≤ r.rcv_nxt
  · rw [if_pos hdup] at hres
    cases hres
    exact hinv
  · rw [if_neg hdup] at hres
    cases hres
    show RecvInv σ n0 (consume_contiguous _)
    apply consumeGo_inv
    -- invariant after the (possible) buffer insertion
    by_cases hemp : (if p.seq < r.rcv_nxt then p.payload.drop (r.rcv_nxt - p.seq)
        else p.payload) ≠ []
    · rw [if_pos hemp]
      obtain ⟨h0, h1, h2, h3⟩ := hinv
      refine ⟨h0, h1, h2, ?_⟩
      intro kv hkv
      rcases bufInsert_mem r.buf _ _ kv hkv with hnew | hold
      · subst hnew
        by_cases hlt : p.seq < r.rcv_nxt
        · have key : p.payload.drop (r.rcv_nxt - p.seq)
              = slice σ r.rcv_nxt
                  (r.rcv_nxt + (p.payload.drop (r.rcv_nxt - p.seq)).length) := by
            rw [List.length_drop]
            have e2 : r.rcv_nxt + (p.payload.length - (r.rcv_nxt - p.seq))
                = p.seq + p.payload.length := by omega
            rw [e2]
            conv_lhs => rw [hsl]
            rw [slice_drop]
            have e1 : p.seq + (r.rcv_nxt - p.seq) = r.rcv_nxt := by omega
            rw [e1]
          simp only [if_pos hlt]
          refine ⟨key, ?_⟩
          rw [List.length_drop]
          omega
        · simp only [if_neg hlt]
          exact ⟨hsl, hlen⟩
      · exact h3 kv hold
    · rw [if_neg hemp]
      exact hinv

theorem runData_inv (σ : List Nat) (n0 : Nat) : ∀ (ps : List Packet) (r : Receiver),
    RecvInv σ n0 r →
    (∀ p ∈ ps, p.typ = .DATA ∧ p.channel_type = .RELIABLE ∧
      p.seq + p.payload.length ≤ σ.length ∧
      p.payload = slice σ p.seq (p.seq + p.payload.length)) →
    RecvInv σ n0 (runData r ps) := by
  intro ps
  induction ps with
  | nil => intro r h _; exact h
  | cons p rest ih =>
      intro r hinv hall
      rw [runData]
      obtain ⟨hpt, hpc, hlen, hsl⟩ := hall p (List.mem_cons_self _ _)
      cases hres : r.on_data p with
      | none => exact ih r hinv (fun q hq => hall q (List.mem_cons_of_mem _ hq))
      | some res =>
          exact ih res.1 (on_data_inv σ n0 r p res hinv hpt hpc hlen hsl hres)
            (fun q hq => hall q (List.mem_cons_of_mem _ hq))

/-- Claim C7: `rcv_nxt` never decreases across any `on_data` call, and
after any sequence of reliable DATA packets carrying consistent slices
of an intended stream `σ` (each payload is `σ[seq : seq+len]`), the
receiver that started empty at `rcv_nxt = n0` has delivered exactly
the contiguous prefix `σ[n0 : rcv_nxt]` — no gap, reorder or
duplicate. -/
theorem receiver_delivered_contiguous (σ : List Nat) (ps : List Packet) (n0 : Nat)
    (hn : n0 ≤ σ.length)
    (hp : ∀ p ∈ ps, p.typ = .DATA ∧ p.channel_type = .RELIABLE ∧
      p.seq + p.payload.length ≤ σ.length ∧
      p.payload = slice σ p.seq (p.seq + p.payload.length)) :
    (∀ (r : Receiver) (q : Packet) (res : Receiver × Option Packet),
        r.on_data q = some res → r.rcv_nxt ≤ res.1.rcv_nxt) ∧
    n0 ≤ (runData { rcv_nxt := n0 } ps).rcv_nxt ∧
    (runData { rcv_nxt := n0 } ps).delivered
      = slice σ n0 (runData { rcv_nxt := n0 } ps).rcv_nxt := by
  have hbase : RecvInv σ n0 { rcv_nxt := n0 } := by
    refine ⟨le_rfl, hn, ?_, ?_⟩
    · show ([] : List Nat) = slice σ n0 n0
      unfold slice
      simp
    · intro kv hkv
      simp at hkv
  have hfinal := runData_inv σ n0 ps { rcv_nxt := n0 } hbase hp
  refine ⟨?_, hfinal.1, hfinal.2.2.1⟩
  intro r q res hres
  simp only [Receiver.on_data] at hres
  by_cases ht : q.typ ≠ .DATA
  · rw [if_pos ht] at hres
    cases hres
  · rw [if_neg ht] at hres
    by_cases hc : q.channel_type = .UNRELIABLE
    · rw [if_pos hc] at hres
      cases hres
      exact le_rfl
    · rw [if_neg hc] at hres
      by_cases hdup : q.seq + q.payload.length ≤ r.rcv_nxt
      · rw [if_pos hdup] at hres
        cases hres
        exact le_rfl
      · rw [if_neg hdup] at hres
        cases hres
        by_cases hemp : (if q.seq < r.rcv_nxt then q.payload.drop (r.rcv_nxt - q.seq)
            else q.payload) ≠ []
        · simp only [if_pos hemp]
          have hkey := consume_mono
            { r with buf := bufInsert (if q.seq < r.rcv_nxt then r.rcv_nxt else q.seq)
                              (if q.seq < r.rcv_nxt then q.payload.drop (r.rcv_nxt - q.seq)
                                else q.payload) r.buf }
          exact hkey
        · simp only [if_neg hemp]
          exact consume_mono r

/-- Witness for C7 on the out-of-order-then-fill scenario: stream
"ABCDEF", packets `seq=3 "DEF"` then `seq=0 "ABC"`, starting at
`rcv_nxt = 0`: everything is delivered in order. -/
theorem receiver_delivered_contiguous_witness :
    ((0 : Nat) ≤ ([65, 66, 67, 68, 69, 70] : List Nat).length) ∧
    (runData { rcv_nxt := 0 } [mkRelData 3 [68, 69, 70], mkRelData 0 [65, 66, 67]]).delivered
      = slice [65, 66, 67, 68, 69, 70] 0
          (runData { rcv_nxt := 0 }
            [mkRelData 3 [68, 69, 70], mkRelData 0 [65, 66, 67]]).rcv_nxt := by
  refine ⟨by decide, ?_⟩
  exact (receiver_delivered_contiguous [65, 66, 67, 68, 69, 70]
    [mkRelData 3 [68, 69, 70], mkRelData 0 [65, 66, 67]] 0 (by decide) (by decide)).2.2

theorem readU16_u16be (n : Nat) (h : n ≤ 65535) : readU16 (n / 256 % 256) (n % 256) = n := by
  unfold readU16
  omega

theorem readU32_u32be (n : Nat) (h : n ≤ 4294967295) :
    readU32 (n / 16777216 % 256) (n / 65536 % 256) (n / 256 % 256) (n % 256) = n := by
  unfold readU32
  omega

theorem checksum_le (bs : List Nat) : checksum bs ≤ 65535 := Nat.sub_le _ _

theorem readU16_checksum (bs : List Nat) :
    readU16 (checksum bs / 256 % 256) (checksum bs % 256) = checksum bs :=
  readU16_u16be _ (checksum_le bs)

theorem ofByte_toByte (c : ChannelType) : ChannelType.ofByte c.toByte = some c := by
  cases c <;> rfl

theorem parseBlocks_encBlocks :
    ∀ (bs : List SackBlock) (rest : List Nat),
      (∀ b ∈ bs, b.start ≤ 4294967295 ∧ b.«end» ≤ 4294967295 ∧ b.start < b.«end») →
      parseBlocks bs.length (encBlocks bs ++ rest) = some (bs, rest) := by
  intro bs
  induction bs with
  | nil => intro rest _; simp [encBlocks, parseBlocks]
  | cons b tl ih =>
      intro rest hval
      obtain ⟨hs, he, hlt⟩ := hval b (List.mem_cons_self _ _)
      have e1 := readU32_u32be b.start hs
      have e2 := readU32_u32be b.«end» he
      simp only [encBlocks, u32be, List.cons_append, List.nil_append, List.append_assoc,
        List.length_cons, parseBlocks, e1, e2, if_pos hlt]
      simp only [List.append_eq, List.nil_append, List.append_assoc]
      rw [ih rest (fun x hx => hval x (List.mem_cons_of_mem _ hx))]
      rfl

/-- Counterexample for C1 as stated: `dataWithAck` (a DATA packet with
`ack = 1`) satisfies all the field-range conditions in the claim's own
definition of validity, yet the round trip returns it with `ack = 0`:
the DATA wire format does not carry the `ack` field. -/
theorem codec_roundtrip_claim_cex :
    claimValidPacket dataWithAck ∧
    dataWithAck.to_bytes.bind Packet.from_bytes ≠ some dataWithAck := by
  exact ⟨by decide, by decide⟩

/-- Claim C1 (amended: fields the wire format does not carry for the
packet's type have to be at their dataclass defaults, which the
counterexample above forces): for every packet valid in the claim's
sense whose non-carried fields are at their defaults,
`from_bytes (to_bytes p) = p`. -/
theorem codec_roundtrip (p : Packet) (hv : claimValidPacket p) (hw : wireCanonical p) :
    p.to_bytes.bind Packet.from_bytes = some p := by
  obtain ⟨typ, ch, seq, ts, payload, ack, wnd, techo, sack⟩ := p
  cases typ with
  | DATA =>
      have hseq : seq ≤ 4294967295 := hv.1
      have hts : ts ≤ 4294967295 := hv.2.1
      have hlen : payload.length ≤ MAX_PAYLOAD := hv.2.2.2.2.2.2.2.1 rfl
      have hlen2 : payload.length ≤ 1400 := hlen
      have ha0 : ack = 0 := (hw.1 rfl).1
      have hw0 : wnd = 0 := (hw.1 rfl).2.1
      have ht0 : techo = 0 := (hw.1 rfl).2.2.1
      have hs0 : sack = [] := (hw.1 rfl).2.2.2
      subst ha0 hw0 ht0 hs0
      simp only [Packet.to_bytes]
      rw [if_pos (show _ ∧ _ ∧ _ from ⟨hseq, hts, hlen⟩)]
      rw [Option.some_bind]
      have e1 := readU32_u32be seq hseq
      have e2 := readU32_u32be ts hts
      have e3 := readU16_u16be payload.length (by omega)
      simp only [mkFrame, u32be, u16be, List.cons_append, List.nil_append, List.append_nil,
        Packet.from_bytes, PacketType.toByte, ofByte_toByte,
        PacketType.ofByte, e1, e2, e3, readU16_checksum]
      simp
  | ACK =>
      have hseq : seq ≤ 4294967295 := hv.1
      have hts : ts ≤ 4294967295 := hv.2.1
      have hack : ack ≤ 4294967295 := hv.2.2.1
      have hwnd : wnd ≤ 65535 := hv.2.2.2.1
      have hte : techo ≤ 4294967295 := hv.2.2.2.2.1
      have hp0 : payload = [] := (hv.2.2.2.2.2.2.2.2 (by simp)).1
      have hs0 : sack = [] := hw.2.1 rfl
      subst hp0 hs0
      simp only [Packet.to_bytes]
      rw [if_pos (show _ ∧ _ ∧ _ ∧ _ ∧ _ ∧ _ from ⟨hseq, hts, by trivial, hack, hwnd, hte⟩)]
      rw [Option.some_bind]
      have e1 := readU32_u32be seq hseq
      have e2 := readU32_u32be ts hts
      have e4 := readU32_u32be ack hack
      have e5 := readU16_u16be wnd hwnd
      have e6 := readU32_u32be techo hte
      simp only [mkFrame, ackExtras, u32be, u16be, List.cons_append, List.nil_append,
        List.append_nil, Packet.from_bytes, PacketType.toByte, ofByte_toByte,
        PacketType.ofByte, e1, e2, e4, e5, e6, readU16_checksum]
      simp [readU16]
  | SACK =>
      have hseq : seq ≤ 4294967295 := hv.1
      have hts : ts ≤ 4294967295 := hv.2.1
      have hack : ack ≤ 4294967295 := hv.2.2.1
      have hwnd : wnd ≤ 65535 := hv.2.2.2.1
      have hte : techo ≤ 4294967295 := hv.2.2.2.2.1
      have hrange : ∀ b ∈ sack, b.start ≤ 4294967295 ∧ b.«end» ≤ 4294967295 :=
        hv.2.2.2.2.2.2.1
      have hp0 : payload = [] := (hv.2.2.2.2.2.2.2.2 (by simp)).1
      have hcnt : sack.length ≤ MAX_SACK_BLOCKS := (hv.2.2.2.2.2.2.2.2 (by simp)).2.1
      have hblt : ∀ b ∈ sack, b.start < b.«end» := (hv.2.2.2.2.2.2.2.2 (by simp)).2.2
      have hblk : ∀ b ∈ sack, b.start ≤ 4294967295 ∧ b.«end» ≤ 4294967295 ∧
          b.start < b.«end» :=
        fun b hb => ⟨(hrange b hb).1, (hrange b hb).2, hblt b hb⟩
      subst hp0
      simp only [Packet.to_bytes]
      rw [if_pos (show _ ∧ _ ∧ _ ∧ _ ∧ _ ∧ _ ∧ _ ∧ _ from
        ⟨hseq, hts, by trivial, hack, hwnd, hte, hcnt, fun b hb => hblk b hb⟩)]
      rw [Option.some_bind]
      have e1 := readU32_u32be seq hseq
      have e2 := readU32_u32be ts hts
      have e4 := readU32_u32be ack hack
      have e5 := readU16_u16be wnd hwnd
      have e6 := readU32_u32be techo hte
      have epb := parseBlocks_encBlocks sack [] hblk
      rw [List.append_nil] at epb
      simp only [mkFrame, ackExtras, u32be, u16be, List.cons_append, List.nil_append,
        List.append_nil, Packet.from_bytes, PacketType.toByte, ofByte_toByte,
        PacketType.ofByte, e1, e2, e4, e5, e6, readU16_checksum, epb]
      simp [readU16, hcnt]
  | CTRL =>
      have hseq : seq ≤ 4294967295 := hv.1
      have hts : ts ≤ 4294967295 := hv.2.1
      have hp0 : payload = [] := (hv.2.2.2.2.2.2.2.2 (by simp)).1
      have ha0 : ack = 0 := (hw.2.2 rfl).1
      have hw0 : wnd = 0 := (hw.2.2 rfl).2.1
      have ht0 : techo = 0 := (hw.2.2 rfl).2.2.1
      have hs0 : sack = [] := (hw.2.2 rfl).2.2.2
      subst hp0 ha0 hw0 ht0 hs0
      simp only [Packet.to_bytes]
      rw [if_pos (show _ ∧ _ ∧ _ from ⟨hseq, hts, by trivial⟩)]
      rw [Option.some_bind]
      have e1 := readU32_u32be seq hseq
      have e2 := readU32_u32be ts hts
      simp only [mkFrame, u32be, u16be, List.cons_append, List.nil_append,
        List.append_nil, Packet.from_bytes, PacketType.toByte, ofByte_toByte,
        PacketType.ofByte, e1, e2, readU16_checksum]
      simp [readU16]

/-- Witness for C1 (amended) at the two-block SACK frame of the unit
tests. -/
theorem codec_roundtrip_witness :
    claimValidPacket sackExample ∧ wireCanonical sackExample ∧
    sackExample.to_bytes.bind Packet.from_bytes = some sackExample :=
  ⟨by decide, by decide, codec_roundtrip sackExample (by decide) (by decide)⟩

end DCTP
